import Mathlib

/-!
Verification development for the pyQt5_waveplayer repository.

The repository's core is a double-buffered audio scheduling loop that
appears twice: `AudioWriter.play` in `audiosocket.py` and
`AudioWriter.run` in `pyqtAudioWriter.py`.  Both read byte chunks from a
stream, submit them to the Windows waveOut device through two WAVEHDR
headers, warn on short consecutive reads, compute the peak int16 sample
per chunk, sleep for the estimated playback duration of the last chunk
(`readlen / divideBase / BYTESPERSEC`), and poll `waveOutUnprepareHeader`
on a round-robin cursor until the block is done, nudging `divideBase` up
by `0.01` when the first poll already succeeds.

Shallow embedding conventions:
* A chunk of bytes is a `List Nat` (each entry a byte value).
* The waveOut device is an oracle: for each submission it says whether
  `waveOutPrepareHeader` / `waveOutWrite` fail, and for each completion
  wait it gives the number of `WAVERR_STILLPLAYING` responses before the
  final response (success, or a fatal error code).  A header that is not
  in flight is unprepared, so `waveOutUnprepareHeader` on it succeeds on
  the first call.
* The two headers of the source (`self.headers = [WAVEHDR(), WAVEHDR()]`)
  are the fields `slot0`, `slot1`; a slot whose `dwFlags` is in
  `(0, WHDR_DONE)` is modelled as `sfree` or `reclaimable`, a scheduled
  slot as `inflight`.
* Python floats (`divideBase`, the sleep duration) are modelled as exact
  rationals; the claims under check are about the arithmetic contract,
  not bit-level floating point.
* `sys.exit` on a device failure and the unhandled `ValueError` of
  `array.frombytes` on odd-length data are modelled as fatal outcomes.
* Each loop emits a trace of events (reads, underrun warnings, peak
  reports, submissions, sleeps, completion waits, pause suspensions);
  the claims are stated over these traces and the final state.
-/

namespace WavePlayer

/-- A chunk of bytes read from the stream (`stream.read(self.BUFSIZE)`). -/
abbrev Chunk := List Nat

/-- `self.BUFSIZE = 100 * 2**10` in audiosocket.py. -/
def BUFSIZE_socket : Nat := 100 * 2 ^ 10

/-- `self.BUFSIZE = 40 * 2**10` in pyqtAudioWriter.py. -/
def BUFSIZE_qt : Nat := 40 * 2 ^ 10

/-- `self.BYTESPERSEC = 176400` in both files. -/
def BYTESPERSEC : Nat := 176400

/-- Status of one WAVEHDR slot.  `sfree` is a never-used header
(`dwFlags == 0`), `inflight` a header scheduled via `waveOutWrite` and not
yet unprepared, `reclaimable` a header whose playback finished and that
was unprepared by the wait loop (`dwFlags == WHDR_DONE`). -/
inductive SlotStatus
  | sfree
  | inflight
  | reclaimable
deriving DecidableEq, Repr

/-- `dwFlags in (0, WHDR_DONE)` fails exactly for an in-flight header. -/
def SlotStatus.busy : SlotStatus → Bool
  | .inflight => true
  | _ => false

/-- Events emitted by the scheduling loop, in program order. -/
inductive Ev
  /-- `data = stream.read(self.BUFSIZE)` returned this chunk. -/
  | read (data : Chunk)
  /-- the underrun debug warning fired for a read of `readlen` bytes. -/
  | warn (readlen bufsize : Nat)
  /-- `max(shortArray)` was computed (and, in the Qt variant, emitted to
  the UI via `UpdateUI.emit`). -/
  | peak (v : Int)
  /-- `_schedule_block(data, self.headers[slot])` queued this chunk. -/
  | submit (slot : Nat) (data : Chunk)
  /-- `time.sleep(d)` with the estimated playback duration. -/
  | sleep (d : ℚ)
  /-- the completion wait on header `slot` made `polls` calls to
  `waveOutUnprepareHeader`. -/
  | wait (slot : Nat) (polls : Nat)
  /-- the Qt loop was suspended at `self.playEvent.wait()` while paused. -/
  | paused
  /-- `winmm.waveOutClose` was called. -/
  | closeDev
deriving DecidableEq, Repr

/-- Behaviour of one completion wait: the device answers
`WAVERR_STILLPLAYING` `still` times, then either succeeds
(`fatal = none`, i.e. `MMSYSERR_NOERROR`) or returns an unrecoverable
error code (`fatal = some code`). -/
structure PollSpec where
  still : Nat
  fatal : Option Nat
deriving DecidableEq, Repr

/-- The waveOut device abstracted: per submission index, whether
`waveOutPrepareHeader` resp. `waveOutWrite` fail; per completion-wait
index, the poll behaviour. -/
structure Oracle where
  prepFail : Nat → Bool
  writeFail : Nat → Bool
  poll : Nat → PollSpec

/-- A device that never fails and always reports completion on the first
poll. -/
def oraTriv : Oracle :=
  { prepFail := fun _ => false,
    writeFail := fun _ => false,
    poll := fun _ => ⟨0, none⟩ }

/-- The oracle injects no device failure (prepare and write always
succeed, every completion wait eventually succeeds).  It may still answer
`WAVERR_STILLPLAYING` any number of times. -/
def Oracle.errFree (ora : Oracle) : Prop :=
  (∀ k, ora.prepFail k = false) ∧ (∀ k, ora.writeFail k = false) ∧
    (∀ k, (ora.poll k).fatal = none)

/-- Ways the session dies: `sys.exit` after `waveOutPrepareHeader` /
`waveOutWrite` / `waveOutUnprepareHeader` failure, or the unhandled
`ValueError` from `array.array('h').frombytes` on odd-length data. -/
inductive Fatal
  | prep
  | wr
  | pollErr (code : Nat)
  | valueErr
deriving DecidableEq, Repr

/-- How a bounded run of the loop ended. -/
inductive Outcome
  | ok
  | fatal (f : Fatal)
  | fuelOut
deriving DecidableEq, Repr

/-- The mutable state of the scheduling loop.  `stopping` is the local
variable of `play`; `sharedStop` is the `self.stopping` flag of the Qt
variant (set by `stop()` and by the zero-length read).  `pos` is the read
position in the chunk sequence, `subCount` counts submissions, `iter`
counts loop iterations (used to index the device oracle and the external
schedule). -/
structure St where
  slot0 : SlotStatus
  slot1 : SlotStatus
  curblock : Bool
  stopping : Bool
  sharedStop : Bool
  prevlen : Nat
  readlen : Nat
  divideBase : ℚ
  pos : Nat
  subCount : Nat
  iter : Nat
deriving DecidableEq, Repr

/-- `self.headers[i]` for `i` coded as a `Bool` (`false` = header 0). -/
def getSlot (st : St) (b : Bool) : SlotStatus :=
  cond b st.slot1 st.slot0

/-- Update one header's status. -/
def setSlot (st : St) (b : Bool) (s : SlotStatus) : St :=
  cond b { st with slot1 := s } { st with slot0 := s }

/-- Numeric index of a header. -/
def slotIdx (b : Bool) : Nat := cond b 1 0

/-- `freeids = [x for x in range(blocknum) if self.headers[x].dwFlags in
(0, WHDR_DONE)]` — the reclaimable headers in ascending index order. -/
def freeids (st : St) : List Bool :=
  (if (getSlot st false).busy then [] else [false]) ++
    (if (getSlot st true).busy then [] else [true])

/-- `stream.read` on the chunk sequence: past its end (end-of-stream) the
read returns the empty chunk, as a file/socket read does. -/
def readChunk (chunks : List Chunk) (pos : Nat) : Chunk :=
  chunks.getD pos []

/-- Two little-endian bytes as one signed 16-bit sample, as
`array.array('h').frombytes` interprets them. -/
def int16OfBytes (b0 b1 : Nat) : Int :=
  if b0 + 256 * b1 < 32768 then (b0 + 256 * b1 : Int)
  else (b0 + 256 * b1 : Int) - 65536

/-- `array.array('h'); frombytes(data)`: the byte list as int16 samples,
`none` when the byte count is odd (Python raises `ValueError`). -/
def toInt16 : Chunk → Option (List Int)
  | [] => some []
  | [_] => none
  | b0 :: b1 :: rest => (toInt16 rest).map fun l => int16OfBytes b0 b1 :: l

/-- `max(shortArray)`: maximum of a sample list, `none` on an empty list
(where Python's `max` raises `ValueError`). -/
def peakOf : List Int → Option Int
  | [] => none
  | a :: rest => some (rest.foldl max a)

/-- Result of the fill pass over `freeids`. -/
structure FillRes where
  evs : List Ev
  st : St
  fatal : Option Fatal
deriving Repr

/-- Result of one step that may also stop an enclosing loop (`brk`). -/
structure StepRes where
  evs : List Ev
  st : St
  fatal : Option Fatal
  brk : Bool
deriving Repr

/-- One slot of the fill pass (the `for i in freeids:` body) of both
loops.  `qt = true` selects the Qt variant, whose zero-length read calls
`self.stop()` (setting the shared flag) instead of assigning the local
`stopping`.  In order: stop check, `stream.read`, end-of-stream check,
underrun comparison of `prevlen` and `readlen` against `BUFSIZE`, int16
conversion and peak, then `_schedule_block` (prepare + write).  `brk`
means the `for` loop stops here (stop flag, end of stream, or a fatal
exit). -/
def fillSlot (qt : Bool) (B : Nat) (ora : Oracle) (chunks : List Chunk)
    (i : Bool) (st : St) : StepRes :=
  if st.stopping then ⟨[], st, none, true⟩
  else
    let data := readChunk chunks st.pos
    let rl := data.length
    let st1 : St := { st with pos := st.pos + 1, readlen := rl }
    if rl = 0 then
      ⟨[Ev.read data],
        if qt then { st1 with sharedStop := true }
        else { st1 with stopping := true }, none, true⟩
    else
      let wevs := if st1.prevlen < B ∧ rl < B then [Ev.warn rl B] else []
      match toInt16 data with
      | none => ⟨Ev.read data :: wevs, st1, some .valueErr, true⟩
      | some samples =>
        match peakOf samples with
        | none => ⟨Ev.read data :: wevs, st1, some .valueErr, true⟩
        | some v =>
          if ora.prepFail st1.subCount then
            ⟨Ev.read data :: (wevs ++ [Ev.peak v]), st1, some .prep, true⟩
          else if ora.writeFail st1.subCount then
            ⟨Ev.read data :: (wevs ++ [Ev.peak v]), st1, some .wr, true⟩
          else
            ⟨Ev.read data ::
                (wevs ++ [Ev.peak v, Ev.submit (slotIdx i) data]),
              setSlot { st1 with subCount := st1.subCount + 1 } i .inflight,
              none, false⟩

/-- The fill pass over the reclaimable headers, in ascending order. -/
def fillPass (qt : Bool) (B : Nat) (ora : Oracle) (chunks : List Chunk) :
    List Bool → St → FillRes
  | [], st => ⟨[], st, none⟩
  | i :: rest, st =>
    let r := fillSlot qt B ora chunks i st
    if r.brk then ⟨r.evs, r.st, r.fatal⟩
    else
      let rr := fillPass qt B ora chunks rest r.st
      ⟨r.evs ++ rr.evs, rr.st, rr.fatal⟩

/-- The completion wait on `self.headers[curblock]`: repeated
`waveOutUnprepareHeader` until the result is not `WAVERR_STILLPLAYING`.
A header that is not in flight is not prepared, so the call is a no-op
success on the first poll.  On the first-poll success
(`pollsnum == 1`) `divideBase` grows by `0.01`. -/
def waitStep (ora : Oracle) (st : St) : FillRes :=
  match getSlot st st.curblock with
  | .inflight =>
    let ps := ora.poll st.iter
    match ps.fatal with
    | some c => ⟨[Ev.wait (slotIdx st.curblock) (ps.still + 1)], st,
        some (.pollErr c)⟩
    | none =>
      let st1 := setSlot st st.curblock .reclaimable
      let st2 := if ps.still = 0 then
          { st1 with divideBase := st1.divideBase + 1 / 100 }
        else st1
      ⟨[Ev.wait (slotIdx st.curblock) (ps.still + 1)], st2, none⟩
  | _ =>
    ⟨[Ev.wait (slotIdx st.curblock) 1],
      { st with divideBase := st.divideBase + 1 / 100 }, none⟩

/-- End-of-iteration bookkeeping: `curblock = (curblock + 1) %
len(self.headers)` and `prevlen = readlen`. -/
def advance (st : St) : St :=
  { st with
      curblock := !st.curblock,
      prevlen := st.readlen,
      iter := st.iter + 1 }

/-- `time.sleep(readlen / divideBase / float(self.BYTESPERSEC))`. -/
def sleepEv (BPS : Nat) (st : St) : Ev :=
  Ev.sleep ((st.readlen : ℚ) / st.divideBase / (BPS : ℚ))

/-- One iteration of `AudioWriter.play` (audiosocket.py): break when all
headers are reclaimable and `stopping` holds; otherwise fill, sleep,
wait on the cursor header, and advance. -/
def playIter (B BPS : Nat) (ora : Oracle) (chunks : List Chunk) (st : St) :
    StepRes :=
  if (getSlot st false).busy = false ∧ (getSlot st true).busy = false ∧
      st.stopping = true then
    ⟨[], st, none, true⟩
  else
    let r1 := fillPass false B ora chunks (freeids st) st
    match r1.fatal with
    | some fk => ⟨r1.evs, r1.st, some fk, true⟩
    | none =>
      let sEv := sleepEv BPS r1.st
      let r2 := waitStep ora r1.st
      match r2.fatal with
      | some fk => ⟨r1.evs ++ sEv :: r2.evs, r2.st, some fk, true⟩
      | none => ⟨r1.evs ++ sEv :: r2.evs, advance r2.st, none, false⟩

/-- Result of running a loop to completion (or out of fuel). -/
structure RunRes where
  evs : List Ev
  st : St
  out : Outcome
deriving Repr

/-- The `while True:` loop of `AudioWriter.play`, bounded by fuel. -/
def playLoop (B BPS : Nat) (ora : Oracle) (chunks : List Chunk) :
    Nat → St → RunRes
  | 0, st => ⟨[], st, .fuelOut⟩
  | fuel + 1, st =>
    let r := playIter B BPS ora chunks st
    match r.fatal with
    | some fk => ⟨r.evs, r.st, .fatal fk⟩
    | none =>
      if r.brk then ⟨r.evs, r.st, .ok⟩
      else
        let rest := playLoop B BPS ora chunks fuel r.st
        ⟨r.evs ++ rest.evs, rest.st, rest.out⟩

/-- The loop's initial state: fresh headers, cursor on block 0, no flags,
`prevlen = 0`, `divideBase = 1.05`. -/
def initSt : St :=
  { slot0 := .sfree,
    slot1 := .sfree,
    curblock := false,
    stopping := false,
    sharedStop := false,
    prevlen := 0,
    readlen := 0,
    divideBase := 105 / 100,
    pos := 0,
    subCount := 0,
    iter := 0 }

/-- `AudioWriter.play` on a chunk sequence. -/
def playRun (B BPS : Nat) (ora : Oracle) (chunks : List Chunk) (fuel : Nat) :
    RunRes :=
  playLoop B BPS ora chunks fuel initSt

/-- One iteration of `AudioWriter.run` (pyqtAudioWriter.py).  The external
schedule gives, per iteration, how many pause suspensions happen at
`self.playEvent.wait()` and whether an external `stop()` call has set
`self.stopping` by the time the loop reads it under `lockStop`.  Unlike
`play`, the termination check is `if stopping: break` with the
all-headers-reclaimable condition commented out in the source. -/
def runIter (B BPS : Nat) (ora : Oracle) (chunks : List Chunk)
    (sched : Nat → Nat × Bool) (st : St) : StepRes :=
  let pevs := List.replicate (sched st.iter).1 Ev.paused
  let st0 : St := { st with sharedStop := st.sharedStop || (sched st.iter).2 }
  if st0.sharedStop then ⟨pevs, st0, none, true⟩
  else
    let r1 := fillPass true B ora chunks (freeids st0) st0
    match r1.fatal with
    | some fk => ⟨pevs ++ r1.evs, r1.st, some fk, true⟩
    | none =>
      let sEv := sleepEv BPS r1.st
      let r2 := waitStep ora r1.st
      match r2.fatal with
      | some fk => ⟨pevs ++ r1.evs ++ sEv :: r2.evs, r2.st, some fk, true⟩
      | none => ⟨pevs ++ r1.evs ++ sEv :: r2.evs, advance r2.st, none, false⟩

/-- The `while True:` loop of `AudioWriter.run`, bounded by fuel. -/
def runLoop (B BPS : Nat) (ora : Oracle) (chunks : List Chunk)
    (sched : Nat → Nat × Bool) : Nat → St → RunRes
  | 0, st => ⟨[], st, .fuelOut⟩
  | fuel + 1, st =>
    let r := runIter B BPS ora chunks sched st
    match r.fatal with
    | some fk => ⟨r.evs, r.st, .fatal fk⟩
    | none =>
      if r.brk then ⟨r.evs, r.st, .ok⟩
      else
        let rest := runLoop B BPS ora chunks sched fuel r.st
        ⟨r.evs ++ rest.evs, rest.st, rest.out⟩

/-- `AudioWriter.run` on a chunk sequence under an external schedule. -/
def runRun (B BPS : Nat) (ora : Oracle) (chunks : List Chunk)
    (sched : Nat → Nat × Bool) (fuel : Nat) : RunRes :=
  runLoop B BPS ora chunks sched fuel initSt

/-! ### Trace extractors -/

/-- The chunks returned by the source's reads, in order. -/
def readsOf (es : List Ev) : List Chunk :=
  es.filterMap fun e => match e with | .read d => some d | _ => none

/-- The data blocks submitted to the device, in order. -/
def submitsOf (es : List Ev) : List Chunk :=
  es.filterMap fun e => match e with | .submit _ d => some d | _ => none

/-- The header indices submitted to, in order. -/
def submitSlotsOf (es : List Ev) : List Nat :=
  es.filterMap fun e => match e with | .submit s _ => some s | _ => none

/-- The underrun warnings, in order. -/
def warnsOf (es : List Ev) : List (Nat × Nat) :=
  es.filterMap fun e => match e with | .warn r b => some (r, b) | _ => none

/-- The completion waits `(header, polls)`, in order. -/
def waitsOf (es : List Ev) : List (Nat × Nat) :=
  es.filterMap fun e => match e with | .wait s p => some (s, p) | _ => none

/-- The reported peak values, in order. -/
def peaksOf (es : List Ev) : List Int :=
  es.filterMap fun e => match e with | .peak v => some v | _ => none

/-- How many times the device was closed. -/
def closeCount (es : List Ev) : Nat :=
  es.countP fun e => match e with | .closeDev => true | _ => false

/-- How many sleeps occurred. -/
def sleepCount (es : List Ev) : Nat :=
  es.countP fun e => match e with | .sleep _ => true | _ => false

/-- How many completion waits succeeded on the first poll (each bumps
`divideBase` by `0.01`). -/
def incrCount (es : List Ev) : Nat :=
  es.countP fun e => match e with | .wait _ p => p == 1 | _ => false

/-- Is this a pause-suspension event? -/
def Ev.isPaused : Ev → Bool
  | .paused => true
  | _ => false

/-! ### Trace walkers

`lastLenAfter` and `factorAfter` recover, from a trace, the values the
loop keeps in `readlen` and `divideBase`: the length of the most recent
read, and the correction factor as bumped by first-poll completion
waits. -/

/-- The length of the most recent read after the trace, starting from
`l`. -/
def lastLenAfter : List Ev → Nat → Nat
  | [], l => l
  | .read d :: t, _ => lastLenAfter t d.length
  | _ :: t, l => lastLenAfter t l

/-- The correction factor after the trace, starting from `f`: each
completion wait that succeeded on its first poll adds `0.01`. -/
def factorAfter : List Ev → ℚ → ℚ
  | [], f => f
  | .wait _ p :: t, f => factorAfter t (if p = 1 then f + 1 / 100 else f)
  | _ :: t, f => factorAfter t f

/-- Every sleep in the trace slept for exactly
`lastReadLen / factor / BPS`, with the most recent read length and the
correction factor tracked along the trace from `l` and `f`. -/
def sleepsOk (BPS : Nat) : List Ev → Nat → ℚ → Bool
  | [], _, _ => true
  | .read d :: t, _, f => sleepsOk BPS t d.length f
  | .wait _ p :: t, l, f =>
    sleepsOk BPS t l (if p = 1 then f + 1 / 100 else f)
  | .sleep v :: t, l, f =>
    decide (v = (l : ℚ) / f / (BPS : ℚ)) && sleepsOk BPS t l f
  | _ :: t, l, f => sleepsOk BPS t l f

/-- Every peak in the trace is the maximum signed 16-bit sample of the
most recent read (tracked from `d`): it is a sample of the chunk and no
sample exceeds it.  In particular a peak can never follow a zero-length
read. -/
def peaksOk : List Ev → Chunk → Bool
  | [], _ => true
  | .read c :: t, _ => peaksOk t c
  | .peak v :: t, d =>
    (match toInt16 d with
     | none => false
     | some s => decide (v ∈ s) && s.all fun x => decide (x ≤ v)) &&
      peaksOk t d
  | _ :: t, d => peaksOk t d

/-- The most recent read's data after the trace, starting from `d`. -/
def lastReadAfter : List Ev → Chunk → Chunk
  | [], d => d
  | .read c :: t, _ => lastReadAfter t c
  | _ :: t, d => lastReadAfter t d

/-- All chunks have an even byte count, as PCM 16-bit data does. -/
def evenChunks (chunks : List Chunk) : Prop :=
  ∀ c ∈ chunks, c.length % 2 = 0

instance (chunks : List Chunk) : Decidable (evenChunks chunks) :=
  List.decidableBAll _ chunks

/-- All chunk entries are bytes. -/
def byteChunks (chunks : List Chunk) : Prop :=
  ∀ c ∈ chunks, ∀ b ∈ c, b < 256

/-! ### Basic lemmas: slots, extractors, walkers -/

@[simp] lemma setSlot_divideBase (st : St) (b : Bool) (s : SlotStatus) :
    (setSlot st b s).divideBase = st.divideBase := by cases b <;> rfl

@[simp] lemma setSlot_curblock (st : St) (b : Bool) (s : SlotStatus) :
    (setSlot st b s).curblock = st.curblock := by cases b <;> rfl

@[simp] lemma setSlot_prevlen (st : St) (b : Bool) (s : SlotStatus) :
    (setSlot st b s).prevlen = st.prevlen := by cases b <;> rfl

@[simp] lemma setSlot_readlen (st : St) (b : Bool) (s : SlotStatus) :
    (setSlot st b s).readlen = st.readlen := by cases b <;> rfl

@[simp] lemma setSlot_pos (st : St) (b : Bool) (s : SlotStatus) :
    (setSlot st b s).pos = st.pos := by cases b <;> rfl

@[simp] lemma setSlot_stopping (st : St) (b : Bool) (s : SlotStatus) :
    (setSlot st b s).stopping = st.stopping := by cases b <;> rfl

@[simp] lemma setSlot_sharedStop (st : St) (b : Bool) (s : SlotStatus) :
    (setSlot st b s).sharedStop = st.sharedStop := by cases b <;> rfl

@[simp] lemma setSlot_iter (st : St) (b : Bool) (s : SlotStatus) :
    (setSlot st b s).iter = st.iter := by cases b <;> rfl

@[simp] lemma setSlot_subCount (st : St) (b : Bool) (s : SlotStatus) :
    (setSlot st b s).subCount = st.subCount := by cases b <;> rfl

@[simp] lemma getSlot_setSlot_same (st : St) (b : Bool) (s : SlotStatus) :
    getSlot (setSlot st b s) b = s := by cases b <;> rfl

lemma getSlot_setSlot_other (st : St) {b c : Bool} (h : b ≠ c)
    (s : SlotStatus) : getSlot (setSlot st b s) c = getSlot st c := by
  cases b <;> cases c <;> first | exact absurd rfl h | rfl

lemma lastLenAfter_append (a b : List Ev) (l : Nat) :
    lastLenAfter (a ++ b) l = lastLenAfter b (lastLenAfter a l) := by
  induction a generalizing l with
  | nil => rfl
  | cons e t ih => cases e <;> simp [lastLenAfter, ih]

lemma lastReadAfter_append (a b : List Ev) (d : Chunk) :
    lastReadAfter (a ++ b) d = lastReadAfter b (lastReadAfter a d) := by
  induction a generalizing d with
  | nil => rfl
  | cons e t ih => cases e <;> simp [lastReadAfter, ih]

lemma factorAfter_append (a b : List Ev) (f : ℚ) :
    factorAfter (a ++ b) f = factorAfter b (factorAfter a f) := by
  induction a generalizing f with
  | nil => rfl
  | cons e t ih => cases e <;> simp [factorAfter, ih]

lemma sleepsOk_append (BPS : Nat) (a b : List Ev) (l : Nat) (f : ℚ) :
    sleepsOk BPS (a ++ b) l f =
      (sleepsOk BPS a l f &&
        sleepsOk BPS b (lastLenAfter a l) (factorAfter a f)) := by
  induction a generalizing l f with
  | nil => simp [sleepsOk, lastLenAfter, factorAfter]
  | cons e t ih =>
    cases e <;>
      simp [sleepsOk, lastLenAfter, factorAfter, ih, Bool.and_assoc]

lemma peaksOk_append (a b : List Ev) (d : Chunk) :
    peaksOk (a ++ b) d = (peaksOk a d && peaksOk b (lastReadAfter a d)) := by
  induction a generalizing d with
  | nil => simp [peaksOk, lastReadAfter]
  | cons e t ih =>
    cases e <;> simp [peaksOk, lastReadAfter, ih, Bool.and_assoc]

/-- `List.foldl max` starting at `a` picks an element of `a :: l`. -/
lemma foldl_max_mem (l : List Int) : ∀ a : Int, l.foldl max a ∈ a :: l := by
  induction l with
  | nil => intro a; simp
  | cons b t ih =>
    intro a
    have h := ih (max a b)
    rw [List.foldl_cons]
    rcases List.mem_cons.1 h with h1 | h1
    · rcases max_choice a b with hm | hm
      · rw [h1, hm]; exact List.mem_cons_self _ _
      · rw [h1, hm]; exact List.mem_cons_of_mem _ (List.mem_cons_self _ _)
    · exact List.mem_cons_of_mem _ (List.mem_cons_of_mem _ h1)

/-- `List.foldl max` starting at `a` bounds every element of `a :: l`. -/
lemma le_foldl_max (l : List Int) :
    ∀ a : Int, ∀ x ∈ a :: l, x ≤ l.foldl max a := by
  induction l with
  | nil =>
    intro a x hx
    simp only [List.mem_singleton] at hx
    simp [hx]
  | cons b t ih =>
    intro a x hx
    rw [List.foldl_cons]
    have hmax : max a b ≤ t.foldl max (max a b) :=
      ih (max a b) _ (List.mem_cons_self _ _)
    rcases List.mem_cons.1 hx with h1 | h1
    · exact le_trans (by rw [h1]; exact le_max_left a b) hmax
    · rcases List.mem_cons.1 h1 with h2 | h2
      · exact le_trans (by rw [h2]; exact le_max_right a b) hmax
      · exact ih (max a b) x (List.mem_cons_of_mem _ h2)

/-- `max(shortArray)` returns a sample of the list that bounds every
sample. -/
lemma peakOf_spec {s : List Int} {v : Int} (h : peakOf s = some v) :
    v ∈ s ∧ ∀ x ∈ s, x ≤ v := by
  cases s with
  | nil => simp [peakOf] at h
  | cons a t =>
    simp only [peakOf, Option.some_inj] at h
    subst h
    exact ⟨foldl_max_mem t a, le_foldl_max t a⟩

/-- Index of the first empty chunk (the end-of-stream read), or the list
length when every chunk is nonempty. -/
def stopIdx : List Chunk → Nat
  | [] => 0
  | c :: t => if c = [] then 0 else stopIdx t + 1

lemma stopIdx_le (l : List Chunk) : stopIdx l ≤ l.length := by
  induction l with
  | nil => simp [stopIdx]
  | cons c t ih =>
    by_cases h : c = [] <;> simp [stopIdx, h] <;> omega

/-- Reading at the stop index yields the empty chunk. -/
lemma getD_stopIdx (l : List Chunk) : l.getD (stopIdx l) [] = [] := by
  induction l with
  | nil => rfl
  | cons c t ih =>
    by_cases hc : c = []
    · simp [stopIdx, hc]
    · simp only [stopIdx, if_neg hc, List.getD_cons_succ]
      exact ih

/-! ### Per-slot facts about the fill pass -/

/-- When the stop flag is already set the slot body does nothing and
breaks the pass. -/
lemma fillSlot_stopping (qt : Bool) (B : Nat) (ora : Oracle)
    (chunks : List Chunk) (i : Bool) (st : St) (h : st.stopping = true) :
    fillSlot qt B ora chunks i st = ⟨[], st, none, true⟩ := by
  simp [fillSlot, h]

/-- Fields of the state the slot body never touches, plus monotonicity
of the read position and the submission counter. -/
lemma fillSlot_state (qt : Bool) (B : Nat) (ora : Oracle) (chunks : List Chunk)
    (i : Bool) (st : St) :
    (fillSlot qt B ora chunks i st).st.divideBase = st.divideBase ∧
    (fillSlot qt B ora chunks i st).st.curblock = st.curblock ∧
    (fillSlot qt B ora chunks i st).st.prevlen = st.prevlen ∧
    (fillSlot qt B ora chunks i st).st.iter = st.iter ∧
    st.pos ≤ (fillSlot qt B ora chunks i st).st.pos ∧
    st.subCount ≤ (fillSlot qt B ora chunks i st).st.subCount := by
  by_cases h1 : st.stopping = true
  · simp [fillSlot, h1]
  · by_cases h2 : (readChunk chunks st.pos).length = 0
    · cases qt <;> simp [fillSlot, h1, h2]
    · cases h16 : toInt16 (readChunk chunks st.pos) with
      | none => simp [fillSlot, h1, h2, h16]
      | some samples =>
        cases hpk : peakOf samples with
        | none => simp [fillSlot, h1, h2, h16, hpk]
        | some v =>
          by_cases hp : ora.prepFail st.subCount = true
          · simp [fillSlot, h1, h2, h16, hpk, hp]
          · by_cases hw : ora.writeFail st.subCount = true
            · simp [fillSlot, h1, h2, h16, hpk, hp, hw]
            · simp [fillSlot, h1, h2, h16, hpk, hp, hw]

/-- The stop flags of the other variant are untouched: `play` never
writes `self.stopping` of the Qt object, `run` never writes the local
`stopping` of `play`. -/
lemma fillSlot_flags (qt : Bool) (B : Nat) (ora : Oracle) (chunks : List Chunk)
    (i : Bool) (st : St) :
    (qt = false → (fillSlot qt B ora chunks i st).st.sharedStop =
      st.sharedStop) ∧
    (qt = true → (fillSlot qt B ora chunks i st).st.stopping = st.stopping) := by
  by_cases h1 : st.stopping = true
  · simp [fillSlot, h1]
  · by_cases h2 : (readChunk chunks st.pos).length = 0
    · cases qt <;> simp [fillSlot, h1, h2]
    · cases h16 : toInt16 (readChunk chunks st.pos) with
      | none => simp [fillSlot, h1, h2, h16]
      | some samples =>
        cases hpk : peakOf samples with
        | none => simp [fillSlot, h1, h2, h16, hpk]
        | some v =>
          by_cases hp : ora.prepFail st.subCount = true
          · simp [fillSlot, h1, h2, h16, hpk, hp]
          · by_cases hw : ora.writeFail st.subCount = true
            · simp [fillSlot, h1, h2, h16, hpk, hp, hw]
            · simp [fillSlot, h1, h2, h16, hpk, hp, hw]

/-- The slot body emits no sleep, wait, pause or close events, so the
trace walkers pass through it: the correction factor is untouched, every
sleep check holds vacuously, the last-read length lands in `readlen`,
and every peak it emits is the int16 maximum of the chunk it just
read. -/
lemma fillSlot_walk (qt : Bool) (B : Nat) (ora : Oracle) (chunks : List Chunk)
    (i : Bool) (st : St) :
    (∀ f, factorAfter (fillSlot qt B ora chunks i st).evs f = f) ∧
    (∀ BPS l f, sleepsOk BPS (fillSlot qt B ora chunks i st).evs l f = true) ∧
    lastLenAfter (fillSlot qt B ora chunks i st).evs st.readlen =
      (fillSlot qt B ora chunks i st).st.readlen ∧
    (∀ d, peaksOk (fillSlot qt B ora chunks i st).evs d = true) ∧
    closeCount (fillSlot qt B ora chunks i st).evs = 0 ∧
    sleepCount (fillSlot qt B ora chunks i st).evs = 0 := by
  by_cases h1 : st.stopping = true
  · simp [fillSlot, h1, factorAfter, sleepsOk, lastLenAfter, peaksOk,
      closeCount, sleepCount]
  · by_cases h2 : (readChunk chunks st.pos).length = 0
    · have hnil : readChunk chunks st.pos = [] := List.length_eq_zero.1 h2
      cases qt <;>
        simp [fillSlot, h1, h2, hnil, factorAfter, sleepsOk, lastLenAfter,
          peaksOk, closeCount, sleepCount]
    · by_cases hwa : st.prevlen < B ∧ (readChunk chunks st.pos).length < B
      · cases h16 : toInt16 (readChunk chunks st.pos) with
        | none =>
          simp [fillSlot, h1, h2, h16, hwa, factorAfter, sleepsOk,
            lastLenAfter, peaksOk, closeCount, sleepCount]
        | some samples =>
          cases hpk : peakOf samples with
          | none =>
            simp [fillSlot, h1, h2, h16, hpk, hwa, factorAfter, sleepsOk,
              lastLenAfter, peaksOk, closeCount, sleepCount]
          | some v =>
            have hv := peakOf_spec hpk
            by_cases hp : ora.prepFail st.subCount = true
            · simp [fillSlot, h1, h2, h16, hpk, hwa, hp, factorAfter,
                sleepsOk, lastLenAfter, peaksOk, closeCount, sleepCount,
                hv.1] <;> exact hv.2
            · by_cases hw : ora.writeFail st.subCount = true
              · simp [fillSlot, h1, h2, h16, hpk, hwa, hp, hw, factorAfter,
                  sleepsOk, lastLenAfter, peaksOk, closeCount, sleepCount,
                  hv.1] <;> exact hv.2
              · simp [fillSlot, h1, h2, h16, hpk, hwa, hp, hw, factorAfter,
                  sleepsOk, lastLenAfter, peaksOk, closeCount, sleepCount,
                  hv.1] <;> exact hv.2
      · cases h16 : toInt16 (readChunk chunks st.pos) with
        | none =>
          simp [fillSlot, h1, h2, h16, hwa, factorAfter, sleepsOk,
            lastLenAfter, peaksOk, closeCount, sleepCount]
        | some samples =>
          cases hpk : peakOf samples with
          | none =>
            simp [fillSlot, h1, h2, h16, hpk, hwa, factorAfter, sleepsOk,
              lastLenAfter, peaksOk, closeCount, sleepCount]
          | some v =>
            have hv := peakOf_spec hpk
            by_cases hp : ora.prepFail st.subCount = true
            · simp [fillSlot, h1, h2, h16, hpk, hwa, hp, factorAfter,
                sleepsOk, lastLenAfter, peaksOk, closeCount, sleepCount,
                hv.1] <;> exact hv.2
            · by_cases hw : ora.writeFail st.subCount = true
              · simp [fillSlot, h1, h2, h16, hpk, hwa, hp, hw, factorAfter,
                  sleepsOk, lastLenAfter, peaksOk, closeCount, sleepCount,
                  hv.1] <;> exact hv.2
              · simp [fillSlot, h1, h2, h16, hpk, hwa, hp, hw, factorAfter,
                  sleepsOk, lastLenAfter, peaksOk, closeCount, sleepCount,
                  hv.1] <;> exact hv.2

/-- When the slot body does not exit fatally, it submits exactly the
nonempty chunks it read (in order), and it submits at most once, to its
own header, exactly when it does not break the pass. -/
lemma fillSlot_subs (qt : Bool) (B : Nat) (ora : Oracle) (chunks : List Chunk)
    (i : Bool) (st : St) :
    ((fillSlot qt B ora chunks i st).fatal = none →
      submitsOf (fillSlot qt B ora chunks i st).evs =
        (readsOf (fillSlot qt B ora chunks i st).evs).filter
          fun c => !c.isEmpty) ∧
    submitSlotsOf (fillSlot qt B ora chunks i st).evs =
      (if (fillSlot qt B ora chunks i st).brk then [] else [slotIdx i]) := by
  by_cases h1 : st.stopping = true
  · simp [fillSlot, h1, submitsOf, readsOf, submitSlotsOf]
  · by_cases h2 : (readChunk chunks st.pos).length = 0
    · have hnil : readChunk chunks st.pos = [] := List.length_eq_zero.1 h2
      cases qt <;>
        simp [fillSlot, h1, h2, hnil, submitsOf, readsOf, submitSlotsOf]
    · have hnotnil : readChunk chunks st.pos ≠ [] := by
        intro hh; exact h2 (by simp [hh])
      by_cases hwa : st.prevlen < B ∧ (readChunk chunks st.pos).length < B
      all_goals cases h16 : toInt16 (readChunk chunks st.pos) with
      | none =>
        simp [fillSlot, h1, h2, h16, hwa, submitsOf, readsOf, submitSlotsOf]
      | some samples =>
        cases hpk : peakOf samples with
        | none =>
          simp [fillSlot, h1, h2, h16, hpk, hwa, submitsOf, readsOf,
            submitSlotsOf]
        | some v =>
          by_cases hp : ora.prepFail st.subCount = true
          · simp [fillSlot, h1, h2, h16, hpk, hwa, hp, submitsOf, readsOf,
              submitSlotsOf]
          · by_cases hw : ora.writeFail st.subCount = true
            · simp [fillSlot, h1, h2, h16, hpk, hwa, hp, hw, submitsOf,
                readsOf, submitSlotsOf]
            · simp [fillSlot, h1, h2, h16, hpk, hwa, hp, hw, submitsOf,
                readsOf, submitSlotsOf, hnotnil]

/-- The underrun warnings of the slot body are exactly the reads that
are nonempty, shorter than `BUFSIZE`, and preceded by a `prevlen` state
shorter than `BUFSIZE` — `prevlen` being fixed for the whole pass. -/
lemma fillSlot_warns (qt : Bool) (B : Nat) (ora : Oracle) (chunks : List Chunk)
    (i : Bool) (st : St) :
    warnsOf (fillSlot qt B ora chunks i st).evs =
      (readsOf (fillSlot qt B ora chunks i st).evs).filterMap
        fun c => if st.prevlen < B ∧ 0 < c.length ∧ c.length < B then
          some (c.length, B) else none := by
  by_cases h1 : st.stopping = true
  · simp [fillSlot, h1, warnsOf, readsOf]
  · by_cases h2 : (readChunk chunks st.pos).length = 0
    · have hnil : readChunk chunks st.pos = [] := List.length_eq_zero.1 h2
      cases qt <;> simp [fillSlot, h1, h2, hnil, warnsOf, readsOf]
    · have hpos : 0 < (readChunk chunks st.pos).length :=
        Nat.pos_of_ne_zero h2
      by_cases hwa : st.prevlen < B ∧ (readChunk chunks st.pos).length < B
      · have hcond : st.prevlen < B ∧ 0 < (readChunk chunks st.pos).length ∧
            (readChunk chunks st.pos).length < B := ⟨hwa.1, hpos, hwa.2⟩
        cases h16 : toInt16 (readChunk chunks st.pos) with
        | none =>
          simp [fillSlot, h1, h2, h16, hcond, warnsOf, readsOf]
        | some samples =>
          cases hpk : peakOf samples with
          | none => simp [fillSlot, h1, h2, h16, hpk, hcond, warnsOf, readsOf]
          | some v =>
            by_cases hp : ora.prepFail st.subCount = true
            · simp [fillSlot, h1, h2, h16, hpk, hcond, hp, warnsOf, readsOf]
            · by_cases hw : ora.writeFail st.subCount = true
              · simp [fillSlot, h1, h2, h16, hpk, hcond, hp, hw, warnsOf,
                  readsOf]
              · simp [fillSlot, h1, h2, h16, hpk, hcond, hp, hw, warnsOf,
                  readsOf]
      · have hncond : ¬(st.prevlen < B ∧ 0 < (readChunk chunks st.pos).length ∧
            (readChunk chunks st.pos).length < B) :=
          fun hc => hwa ⟨hc.1, hc.2.2⟩
        cases h16 : toInt16 (readChunk chunks st.pos) with
        | none =>
          simp [fillSlot, h1, h2, h16, hwa, hncond, warnsOf, readsOf]
        | some samples =>
          cases hpk : peakOf samples with
          | none => simp [fillSlot, h1, h2, h16, hpk, hwa, hncond, warnsOf,
              readsOf]
          | some v =>
            by_cases hp : ora.prepFail st.subCount = true
            · simp [fillSlot, h1, h2, h16, hpk, hwa, hncond, hp, warnsOf,
                readsOf]
            · by_cases hw : ora.writeFail st.subCount = true
              · simp [fillSlot, h1, h2, h16, hpk, hwa, hncond, hp, hw,
                  warnsOf, readsOf]
              · simp [fillSlot, h1, h2, h16, hpk, hwa, hncond, hp, hw,
                  warnsOf, readsOf]

/-- Header statuses: the slot body only marks its own header in flight
(exactly when it submitted, i.e. did not break); it never reclaims. -/
lemma fillSlot_slots (qt : Bool) (B : Nat) (ora : Oracle) (chunks : List Chunk)
    (i : Bool) (st : St) :
    ((fillSlot qt B ora chunks i st).brk = true →
      (fillSlot qt B ora chunks i st).st.slot0 = st.slot0 ∧
      (fillSlot qt B ora chunks i st).st.slot1 = st.slot1) ∧
    ((fillSlot qt B ora chunks i st).brk = false →
      getSlot (fillSlot qt B ora chunks i st).st i = .inflight ∧
      ∀ b, b ≠ i → getSlot (fillSlot qt B ora chunks i st).st b =
        getSlot st b) := by
  by_cases h1 : st.stopping = true
  · simp [fillSlot, h1]
  · by_cases h2 : (readChunk chunks st.pos).length = 0
    · cases qt <;> simp [fillSlot, h1, h2]
    · cases h16 : toInt16 (readChunk chunks st.pos) with
      | none => simp [fillSlot, h1, h2, h16]
      | some samples =>
        cases hpk : peakOf samples with
        | none => simp [fillSlot, h1, h2, h16, hpk]
        | some v =>
          by_cases hp : ora.prepFail st.subCount = true
          · simp [fillSlot, h1, h2, h16, hpk, hp]
          · by_cases hw : ora.writeFail st.subCount = true
            · simp [fillSlot, h1, h2, h16, hpk, hp, hw]
            · refine ⟨by simp [fillSlot, h1, h2, h16, hpk, hp, hw], ?_⟩
              intro _
              refine ⟨by simp [fillSlot, h1, h2, h16, hpk, hp, hw], ?_⟩
              intro b hb
              have hbi : i ≠ b := fun hh => hb hh.symm
              simp only [fillSlot, h1, h2, h16, hpk, hp, hw, if_neg,
                Bool.false_eq_true, if_false]
              rw [getSlot_setSlot_other _ hbi]
              cases b <;> rfl

/-- Progress of the read position: a slot body entered with the stop
flag clear always reads (so `pos` strictly increases), and while the
`play` variant has not set its stop flag the position stays at or below
the index of the end-of-stream read. -/
lemma fillSlot_pos (qt : Bool) (B : Nat) (ora : Oracle) (chunks : List Chunk)
    (i : Bool) (st : St) :
    (st.stopping = false → st.pos < (fillSlot qt B ora chunks i st).st.pos) ∧
    (qt = false → st.stopping = false →
      (fillSlot qt B ora chunks i st).st.stopping = false →
      st.pos ≤ stopIdx chunks →
      (fillSlot qt B ora chunks i st).st.pos ≤ stopIdx chunks) := by
  by_cases h1 : st.stopping = true
  · simp [fillSlot, h1]
  · have hstep : st.pos ≤ stopIdx chunks →
        ¬(readChunk chunks st.pos).length = 0 →
        st.pos + 1 ≤ stopIdx chunks := by
      intro hle hne
      rcases Nat.lt_or_ge st.pos (stopIdx chunks) with hlt | hge
      · omega
      · exfalso
        have : st.pos = stopIdx chunks := le_antisymm hle hge
        exact hne (by rw [readChunk, this, getD_stopIdx]; rfl)
    by_cases h2 : (readChunk chunks st.pos).length = 0
    · cases qt <;> simp [fillSlot, h1, h2]
    · cases h16 : toInt16 (readChunk chunks st.pos) with
      | none =>
        simp [fillSlot, h1, h2, h16]
        intros; exact hstep (by assumption) h2
      | some samples =>
        cases hpk : peakOf samples with
        | none =>
          simp [fillSlot, h1, h2, h16, hpk]
          intros; exact hstep (by assumption) h2
        | some v =>
          by_cases hp : ora.prepFail st.subCount = true
          · simp [fillSlot, h1, h2, h16, hpk, hp]
            intros; exact hstep (by assumption) h2
          · by_cases hw : ora.writeFail st.subCount = true
            · simp [fillSlot, h1, h2, h16, hpk, hp, hw]
              intros; exact hstep (by assumption) h2
            · simp [fillSlot, h1, h2, h16, hpk, hp, hw]
              intros; exact hstep (by assumption) h2

/-- A fill pass body that does not break carries no fatal exit. -/
lemma fillSlot_brkFatal (qt : Bool) (B : Nat) (ora : Oracle)
    (chunks : List Chunk) (i : Bool) (st : St)
    (h : (fillSlot qt B ora chunks i st).brk = false) :
    (fillSlot qt B ora chunks i st).fatal = none := by
  by_cases h1 : st.stopping = true
  · simp [fillSlot, h1]
  · by_cases h2 : (readChunk chunks st.pos).length = 0
    · cases qt <;> simp [fillSlot, h1, h2]
    · cases h16 : toInt16 (readChunk chunks st.pos) with
      | none => simp [fillSlot, h1, h2, h16] at h
      | some samples =>
        cases hpk : peakOf samples with
        | none => simp [fillSlot, h1, h2, h16, hpk] at h
        | some v =>
          by_cases hp : ora.prepFail st.subCount = true
          · simp [fillSlot, h1, h2, h16, hpk, hp] at h
          · by_cases hw : ora.writeFail st.subCount = true
            · simp [fillSlot, h1, h2, h16, hpk, hp, hw] at h
            · simp [fillSlot, h1, h2, h16, hpk, hp, hw]

/-! ### Facts about the whole fill pass -/

/-- With the stop flag set, the whole fill pass is a no-op. -/
lemma fillPass_stopping (qt : Bool) (B : Nat) (ora : Oracle)
    (chunks : List Chunk) (ids : List Bool) (st : St)
    (h : st.stopping = true) :
    fillPass qt B ora chunks ids st = ⟨[], st, none⟩ := by
  cases ids with
  | nil => rfl
  | cons i rest => simp [fillPass, fillSlot_stopping qt B ora chunks i st h]

/-- State fields the fill pass never touches, and monotonicity of the
read position and submission counter. -/
lemma fillPass_state (qt : Bool) (B : Nat) (ora : Oracle) (chunks : List Chunk)
    (ids : List Bool) (st : St) :
    (fillPass qt B ora chunks ids st).st.divideBase = st.divideBase ∧
    (fillPass qt B ora chunks ids st).st.curblock = st.curblock ∧
    (fillPass qt B ora chunks ids st).st.prevlen = st.prevlen ∧
    (fillPass qt B ora chunks ids st).st.iter = st.iter ∧
    st.pos ≤ (fillPass qt B ora chunks ids st).st.pos := by
  induction ids generalizing st with
  | nil => exact ⟨rfl, rfl, rfl, rfl, le_refl _⟩
  | cons i rest ih =>
    have hs := fillSlot_state qt B ora chunks i st
    by_cases hbrk : (fillSlot qt B ora chunks i st).brk = true
    · simp only [fillPass, hbrk, if_true]
      exact ⟨hs.1, hs.2.1, hs.2.2.1, hs.2.2.2.1, hs.2.2.2.2.1⟩
    · simp only [Bool.not_eq_true] at hbrk
      simp only [fillPass, hbrk, Bool.false_eq_true, if_false]
      have hr := ih (fillSlot qt B ora chunks i st).st
      refine ⟨hr.1.trans hs.1, hr.2.1.trans hs.2.1, hr.2.2.1.trans hs.2.2.1,
        hr.2.2.2.1.trans hs.2.2.2.1, hs.2.2.2.2.1.trans hr.2.2.2.2⟩

/-- Stop flags of the respective other variant survive the fill pass. -/
lemma fillPass_flags (qt : Bool) (B : Nat) (ora : Oracle) (chunks : List Chunk)
    (ids : List Bool) (st : St) :
    (qt = false → (fillPass qt B ora chunks ids st).st.sharedStop =
      st.sharedStop) ∧
    (qt = true → (fillPass qt B ora chunks ids st).st.stopping =
      st.stopping) := by
  induction ids generalizing st with
  | nil => exact ⟨fun _ => rfl, fun _ => rfl⟩
  | cons i rest ih =>
    have hs := fillSlot_flags qt B ora chunks i st
    by_cases hbrk : (fillSlot qt B ora chunks i st).brk = true
    · simp only [fillPass, hbrk, if_true]
      exact hs
    · simp only [Bool.not_eq_true] at hbrk
      simp only [fillPass, hbrk, Bool.false_eq_true, if_false]
      have hr := ih (fillSlot qt B ora chunks i st).st
      exact ⟨fun hq => (hr.1 hq).trans (hs.1 hq),
        fun hq => (hr.2 hq).trans (hs.2 hq)⟩

/-- In the `play` variant the local stop flag, once set, survives the
fill pass; conversely a pass ending with the flag clear started with it
clear. -/
lemma fillPass_stopMono (B : Nat) (ora : Oracle) (chunks : List Chunk)
    (ids : List Bool) (st : St) (h : st.stopping = true) :
    (fillPass false B ora chunks ids st).st.stopping = true := by
  rw [fillPass_stopping false B ora chunks ids st h]; exact h

/-- The fill pass emits no sleep, wait, pause or close events; the trace
walkers pass through it. -/
lemma fillPass_walk (BPS : Nat) (qt : Bool) (B : Nat) (ora : Oracle)
    (chunks : List Chunk) (ids : List Bool) (st : St) :
    (∀ f, factorAfter (fillPass qt B ora chunks ids st).evs f = f) ∧
    (∀ l f, sleepsOk BPS (fillPass qt B ora chunks ids st).evs l f = true) ∧
    lastLenAfter (fillPass qt B ora chunks ids st).evs st.readlen =
      (fillPass qt B ora chunks ids st).st.readlen ∧
    (∀ d, peaksOk (fillPass qt B ora chunks ids st).evs d = true) ∧
    closeCount (fillPass qt B ora chunks ids st).evs = 0 ∧
    sleepCount (fillPass qt B ora chunks ids st).evs = 0 := by
  induction ids generalizing st with
  | nil =>
    exact ⟨fun _ => rfl, fun _ _ => rfl, rfl, fun _ => rfl, rfl, rfl⟩
  | cons i rest ih =>
    have hs := fillSlot_walk qt B ora chunks i st
    by_cases hbrk : (fillSlot qt B ora chunks i st).brk = true
    · simp only [fillPass, hbrk, if_true]
      exact ⟨hs.1, fun l f => hs.2.1 BPS l f, hs.2.2.1, hs.2.2.2.1,
        hs.2.2.2.2.1, hs.2.2.2.2.2⟩
    · simp only [Bool.not_eq_true] at hbrk
      simp only [fillPass, hbrk, Bool.false_eq_true, if_false]
      have hr := ih (fillSlot qt B ora chunks i st).st
      refine ⟨?_, ?_, ?_, ?_, ?_, ?_⟩
      · intro f; rw [factorAfter_append, hs.1 f, hr.1 f]
      · intro l f
        rw [sleepsOk_append, hs.2.1 BPS l f, hs.1 f, Bool.true_and]
        exact hr.2.1 _ f
      · rw [lastLenAfter_append, hs.2.2.1, hr.2.2.1]
      · intro d
        rw [peaksOk_append, hs.2.2.2.1 d, Bool.true_and]
        exact hr.2.2.2.1 _
      · unfold closeCount at *
        rw [List.countP_append, hs.2.2.2.2.1, hr.2.2.2.2.1]
      · unfold sleepCount at *
        rw [List.countP_append, hs.2.2.2.2.2, hr.2.2.2.2.2]

/-- If the fill pass does not exit fatally, it submits exactly the
nonempty chunks it read, in read order; and it touches each header of
`freeids` at most once, in the given ascending order. -/
lemma fillPass_subs (qt : Bool) (B : Nat) (ora : Oracle) (chunks : List Chunk)
    (ids : List Bool) (st : St) :
    ((fillPass qt B ora chunks ids st).fatal = none →
      submitsOf (fillPass qt B ora chunks ids st).evs =
        (readsOf (fillPass qt B ora chunks ids st).evs).filter
          fun c => !c.isEmpty) ∧
    List.Sublist (submitSlotsOf (fillPass qt B ora chunks ids st).evs)
      (ids.map slotIdx) := by
  induction ids generalizing st with
  | nil => exact ⟨fun _ => rfl, List.nil_sublist _⟩
  | cons i rest ih =>
    have hs := fillSlot_subs qt B ora chunks i st
    by_cases hbrk : (fillSlot qt B ora chunks i st).brk = true
    · simp only [fillPass, hbrk, if_true]
      refine ⟨hs.1, ?_⟩
      rw [hs.2, hbrk]
      simp
    · simp only [Bool.not_eq_true] at hbrk
      simp only [fillPass, hbrk, Bool.false_eq_true, if_false]
      have hr := ih (fillSlot qt B ora chunks i st).st
      refine ⟨?_, ?_⟩
      · intro hf
        unfold submitsOf readsOf at *
        rw [List.filterMap_append, List.filterMap_append, List.filter_append,
          hs.1 (fillSlot_brkFatal qt B ora chunks i st hbrk), hr.1 hf]
      · unfold submitSlotsOf at *
        rw [List.filterMap_append, hs.2, hbrk]
        simp only [Bool.false_eq_true, if_false, List.map_cons]
        exact (hr.2.cons₂ (slotIdx i)).trans (List.Sublist.refl _)

/-- The underrun warnings of a fill pass are exactly its nonempty short
reads whose pass-entry `prevlen` was short — `prevlen` never changes
during the pass, so every read of the pass is compared against the same
value. -/
lemma fillPass_warns (qt : Bool) (B : Nat) (ora : Oracle) (chunks : List Chunk)
    (ids : List Bool) (st : St) :
    warnsOf (fillPass qt B ora chunks ids st).evs =
      (readsOf (fillPass qt B ora chunks ids st).evs).filterMap
        fun c => if st.prevlen < B ∧ 0 < c.length ∧ c.length < B then
          some (c.length, B) else none := by
  induction ids generalizing st with
  | nil => rfl
  | cons i rest ih =>
    have hs := fillSlot_warns qt B ora chunks i st
    by_cases hbrk : (fillSlot qt B ora chunks i st).brk = true
    · simp only [fillPass, hbrk, if_true]
      exact hs
    · simp only [Bool.not_eq_true] at hbrk
      simp only [fillPass, hbrk, Bool.false_eq_true, if_false]
      have hpl : (fillSlot qt B ora chunks i st).st.prevlen = st.prevlen :=
        (fillSlot_state qt B ora chunks i st).2.2.1
      have hr := ih (fillSlot qt B ora chunks i st).st
      rw [hpl] at hr
      unfold warnsOf readsOf at *
      rw [List.filterMap_append, List.filterMap_append, List.filterMap_append,
        hs, hr]

/-- Read-position progress of the fill pass: with the stop flag clear and
at least one reclaimable header, the pass reads at least one chunk; and
in the `play` variant, while the stop flag stays clear the position
stays at or below the end-of-stream index. -/
lemma fillPass_pos (qt : Bool) (B : Nat) (ora : Oracle) (chunks : List Chunk)
    (ids : List Bool) (st : St) :
    (st.stopping = false → ids ≠ [] →
      st.pos < (fillPass qt B ora chunks ids st).st.pos) ∧
    (qt = false → (fillPass qt B ora chunks ids st).st.stopping = false →
      st.pos ≤ stopIdx chunks →
      (fillPass qt B ora chunks ids st).st.pos ≤ stopIdx chunks) := by
  induction ids generalizing st with
  | nil => exact ⟨fun _ h => absurd rfl h, fun _ _ h => h⟩
  | cons i rest ih =>
    have hps := fillSlot_pos qt B ora chunks i st
    by_cases hbrk : (fillSlot qt B ora chunks i st).brk = true
    · simp only [fillPass, hbrk, if_true]
      refine ⟨fun hstop _ => hps.1 hstop, ?_⟩
      intro hq hstop hle
      by_cases hst : st.stopping = true
      · rw [fillSlot_stopping qt B ora chunks i st hst] at hstop
        exact absurd hstop (by rw [hst]; simp)
      · exact hps.2 hq (by simpa using hst) hstop hle
    · simp only [Bool.not_eq_true] at hbrk
      simp only [fillPass, hbrk, Bool.false_eq_true, if_false]
      have hr := ih (fillSlot qt B ora chunks i st).st
      refine ⟨?_, ?_⟩
      · intro hstop _
        exact lt_of_lt_of_le (hps.1 hstop)
          (fillPass_state qt B ora chunks rest _).2.2.2.2
      · intro hq hstop hle
        subst hq
        have hmid : (fillSlot false B ora chunks i st).st.stopping = false := by
          by_cases hm : (fillSlot false B ora chunks i st).st.stopping = true
          · rw [fillPass_stopMono B ora chunks rest _ hm] at hstop
            exact absurd hstop (by simp)
          · simpa using hm
        have hst : st.stopping = false := by
          by_cases hs0 : st.stopping = true
          · rw [fillSlot_stopping false B ora chunks i st hs0] at hmid
            rw [hs0] at hmid; exact absurd hmid (by simp)
          · simpa using hs0
        exact hr.2 rfl hstop (hps.2 rfl hst hmid hle)

/-! ### Extractors distribute over appends -/

@[simp] lemma readsOf_nil : readsOf [] = [] := rfl

@[simp] lemma submitsOf_nil : submitsOf [] = [] := rfl

@[simp] lemma submitSlotsOf_nil : submitSlotsOf [] = [] := rfl

@[simp] lemma warnsOf_nil : warnsOf [] = [] := rfl

@[simp] lemma waitsOf_nil : waitsOf [] = [] := rfl

@[simp] lemma peaksOf_nil : peaksOf [] = [] := rfl

@[simp] lemma closeCount_nil : closeCount [] = 0 := rfl

@[simp] lemma sleepCount_nil : sleepCount [] = 0 := rfl

@[simp] lemma incrCount_nil : incrCount [] = 0 := rfl

@[simp] lemma readsOf_append (a b : List Ev) :
    readsOf (a ++ b) = readsOf a ++ readsOf b := by
  unfold readsOf; exact List.filterMap_append a b _

@[simp] lemma submitsOf_append (a b : List Ev) :
    submitsOf (a ++ b) = submitsOf a ++ submitsOf b := by
  unfold submitsOf; exact List.filterMap_append a b _

@[simp] lemma submitSlotsOf_append (a b : List Ev) :
    submitSlotsOf (a ++ b) = submitSlotsOf a ++ submitSlotsOf b := by
  unfold submitSlotsOf; exact List.filterMap_append a b _

@[simp] lemma warnsOf_append (a b : List Ev) :
    warnsOf (a ++ b) = warnsOf a ++ warnsOf b := by
  unfold warnsOf; exact List.filterMap_append a b _

@[simp] lemma waitsOf_append (a b : List Ev) :
    waitsOf (a ++ b) = waitsOf a ++ waitsOf b := by
  unfold waitsOf; exact List.filterMap_append a b _

@[simp] lemma peaksOf_append (a b : List Ev) :
    peaksOf (a ++ b) = peaksOf a ++ peaksOf b := by
  unfold peaksOf; exact List.filterMap_append a b _

@[simp] lemma closeCount_append (a b : List Ev) :
    closeCount (a ++ b) = closeCount a + closeCount b := by
  unfold closeCount; exact List.countP_append _ a b

@[simp] lemma sleepCount_append (a b : List Ev) :
    sleepCount (a ++ b) = sleepCount a + sleepCount b := by
  unfold sleepCount; exact List.countP_append _ a b

@[simp] lemma incrCount_append (a b : List Ev) :
    incrCount (a ++ b) = incrCount a + incrCount b := by
  unfold incrCount; exact List.countP_append _ a b

@[simp] lemma readsOf_sleep (v : ℚ) (t : List Ev) :
    readsOf (Ev.sleep v :: t) = readsOf t := rfl

@[simp] lemma submitsOf_sleep (v : ℚ) (t : List Ev) :
    submitsOf (Ev.sleep v :: t) = submitsOf t := rfl

@[simp] lemma submitSlotsOf_sleep (v : ℚ) (t : List Ev) :
    submitSlotsOf (Ev.sleep v :: t) = submitSlotsOf t := rfl

@[simp] lemma warnsOf_sleep (v : ℚ) (t : List Ev) :
    warnsOf (Ev.sleep v :: t) = warnsOf t := rfl

@[simp] lemma waitsOf_sleep (v : ℚ) (t : List Ev) :
    waitsOf (Ev.sleep v :: t) = waitsOf t := rfl

@[simp] lemma peaksOf_sleep (v : ℚ) (t : List Ev) :
    peaksOf (Ev.sleep v :: t) = peaksOf t := rfl

@[simp] lemma closeCount_sleep (v : ℚ) (t : List Ev) :
    closeCount (Ev.sleep v :: t) = closeCount t := rfl

@[simp] lemma sleepCount_sleep (v : ℚ) (t : List Ev) :
    sleepCount (Ev.sleep v :: t) = sleepCount t + 1 := by
  unfold sleepCount
  simp [List.countP_cons]

@[simp] lemma incrCount_sleep (v : ℚ) (t : List Ev) :
    incrCount (Ev.sleep v :: t) = incrCount t := rfl

@[simp] lemma waitsOf_wait (s p : Nat) (t : List Ev) :
    waitsOf (Ev.wait s p :: t) = (s, p) :: waitsOf t := rfl

@[simp] lemma readsOf_paused (t : List Ev) :
    readsOf (Ev.paused :: t) = readsOf t := rfl

@[simp] lemma submitsOf_paused (t : List Ev) :
    submitsOf (Ev.paused :: t) = submitsOf t := rfl

/-! ### Facts about the completion wait -/

/-- State fields the completion wait never touches. -/
lemma waitStep_state (ora : Oracle) (st : St) :
    (waitStep ora st).st.pos = st.pos ∧
    (waitStep ora st).st.stopping = st.stopping ∧
    (waitStep ora st).st.sharedStop = st.sharedStop ∧
    (waitStep ora st).st.prevlen = st.prevlen ∧
    (waitStep ora st).st.readlen = st.readlen ∧
    (waitStep ora st).st.iter = st.iter ∧
    (waitStep ora st).st.subCount = st.subCount ∧
    (waitStep ora st).st.curblock = st.curblock := by
  cases hcb : getSlot st st.curblock with
  | inflight =>
    cases hf : (ora.poll st.iter).fatal with
    | none =>
      by_cases hstill : (ora.poll st.iter).still = 0 <;>
        simp [waitStep, hcb, hf, hstill]
    | some c => simp [waitStep, hcb, hf]
  | sfree => simp [waitStep, hcb]
  | reclaimable => simp [waitStep, hcb]

/-- On success, the completion wait leaves the cursor header no longer
in flight; it never touches the other header. -/
lemma waitStep_slots (ora : Oracle) (st : St) :
    ((waitStep ora st).fatal = none →
      getSlot (waitStep ora st).st st.curblock ≠ .inflight) ∧
    (∀ b, b ≠ st.curblock → getSlot (waitStep ora st).st b = getSlot st b) := by
  cases hcb : getSlot st st.curblock with
  | inflight =>
    cases hf : (ora.poll st.iter).fatal with
    | none =>
      constructor
      · intro _
        by_cases hstill : (ora.poll st.iter).still = 0 <;>
          · simp only [waitStep, hcb, hf, hstill]
            cases hb : st.curblock <;> simp [getSlot, setSlot]
      · intro b hb
        by_cases hstill : (ora.poll st.iter).still = 0 <;>
          · simp only [waitStep, hcb, hf, hstill]
            cases hc : st.curblock <;> cases b <;>
              simp_all [getSlot, setSlot]
    | some c =>
      refine ⟨by simp [waitStep, hcb, hf], ?_⟩
      intro b hb
      simp [waitStep, hcb, hf]
  | sfree =>
    refine ⟨?_, ?_⟩
    · intro _
      simp only [waitStep, hcb]
      cases hb : st.curblock <;> simp_all [getSlot]
    · intro b hb
      simp only [waitStep, hcb]
      cases b <;> simp [getSlot]
  | reclaimable =>
    refine ⟨?_, ?_⟩
    · intro _
      simp only [waitStep, hcb]
      cases hb : st.curblock <;> simp_all [getSlot]
    · intro b hb
      simp only [waitStep, hcb]
      cases b <;> simp [getSlot]

/-- The completion wait emits exactly one wait event, on the cursor
header, with a positive poll count; all other walkers pass through. -/
lemma waitStep_evs (BPS : Nat) (ora : Oracle) (st : St) :
    (∃ p, 0 < p ∧ (waitStep ora st).evs = [Ev.wait (slotIdx st.curblock) p]) ∧
    (∀ l, lastLenAfter (waitStep ora st).evs l = l) ∧
    (∀ d, peaksOk (waitStep ora st).evs d = true) ∧
    (∀ l f, sleepsOk BPS (waitStep ora st).evs l f = true) ∧
    closeCount (waitStep ora st).evs = 0 ∧
    sleepCount (waitStep ora st).evs = 0 ∧
    readsOf (waitStep ora st).evs = [] ∧
    submitsOf (waitStep ora st).evs = [] ∧
    warnsOf (waitStep ora st).evs = [] ∧
    submitSlotsOf (waitStep ora st).evs = [] := by
  have hevs : ∃ p, 0 < p ∧
      (waitStep ora st).evs = [Ev.wait (slotIdx st.curblock) p] := by
    cases hcb : getSlot st st.curblock with
    | inflight =>
      cases hf : (ora.poll st.iter).fatal with
      | none =>
        refine ⟨(ora.poll st.iter).still + 1, Nat.succ_pos _, ?_⟩
        by_cases hstill : (ora.poll st.iter).still = 0 <;>
          simp [waitStep, hcb, hf, hstill]
      | some c => exact ⟨(ora.poll st.iter).still + 1, Nat.succ_pos _,
          by simp [waitStep, hcb, hf]⟩
    | sfree => exact ⟨1, Nat.one_pos, by simp [waitStep, hcb]⟩
    | reclaimable => exact ⟨1, Nat.one_pos, by simp [waitStep, hcb]⟩
  obtain ⟨p, hp, he⟩ := hevs
  rw [he]
  exact ⟨⟨p, hp, rfl⟩, fun l => rfl, fun d => rfl, fun l f => rfl, rfl, rfl,
    rfl, rfl, rfl, rfl⟩

/-- The correction factor after a completion wait: on success it moves in
lockstep with the trace walker, growing by exactly `0.01` when the wait
succeeded on its first poll and staying unchanged otherwise; it never
decreases. -/
lemma waitStep_factor (ora : Oracle) (st : St) :
    ((waitStep ora st).fatal = none →
      factorAfter (waitStep ora st).evs st.divideBase =
        (waitStep ora st).st.divideBase ∧
      (waitStep ora st).st.divideBase =
        st.divideBase + (incrCount (waitStep ora st).evs : ℚ) / 100) ∧
    st.divideBase ≤ (waitStep ora st).st.divideBase := by
  cases hcb : getSlot st st.curblock with
  | inflight =>
    cases hf : (ora.poll st.iter).fatal with
    | none =>
      by_cases hstill : (ora.poll st.iter).still = 0
      · refine ⟨fun _ => ⟨?_, ?_⟩, ?_⟩ <;>
          simp [waitStep, hcb, hf, hstill, factorAfter, incrCount] <;>
          norm_num
      · refine ⟨fun _ => ⟨?_, ?_⟩, ?_⟩ <;>
          simp [waitStep, hcb, hf, hstill, factorAfter, incrCount] <;>
          norm_num
    | some c =>
      refine ⟨by simp [waitStep, hcb, hf], ?_⟩
      simp [waitStep, hcb, hf]
  | sfree =>
    refine ⟨fun _ => ⟨?_, ?_⟩, ?_⟩ <;>
      simp [waitStep, hcb, factorAfter, incrCount] <;> norm_num
  | reclaimable =>
    refine ⟨fun _ => ⟨?_, ?_⟩, ?_⟩ <;>
      simp [waitStep, hcb, factorAfter, incrCount] <;> norm_num

/-- The completion wait is fatal only through an unrecoverable poll
status; still-playing answers alone never make it fatal. -/
lemma waitStep_fatal (ora : Oracle) (st : St) :
    ((ora.poll st.iter).fatal = none → (waitStep ora st).fatal = none) ∧
    ((waitStep ora st).fatal = none ∨
      ∃ c, (waitStep ora st).fatal = some (.pollErr c)) := by
  cases hcb : getSlot st st.curblock with
  | inflight =>
    cases hf : (ora.poll st.iter).fatal with
    | none =>
      by_cases hstill : (ora.poll st.iter).still = 0 <;>
        simp [waitStep, hcb, hf, hstill]
    | some c =>
      refine ⟨by simp [hf], Or.inr ⟨c, by simp [waitStep, hcb, hf]⟩⟩
  | sfree => simp [waitStep, hcb]
  | reclaimable => simp [waitStep, hcb]

/-! ### Facts about one `play` iteration -/

/-- Once a slot of `freeids` is listed, its header is not in flight. -/
lemma freeids_not_inflight (st : St) :
    ∀ i ∈ freeids st, getSlot st i ≠ .inflight := by
  intro i hi
  unfold freeids at hi
  cases hs0 : st.slot0 <;> cases hs1 : st.slot1 <;> cases i <;>
    simp_all [getSlot, SlotStatus.busy]

/-- If some header is reclaimable, `freeids` is nonempty. -/
lemma freeids_ne_nil (st : St)
    (h : ¬(getSlot st false = .inflight ∧ getSlot st true = .inflight)) :
    freeids st ≠ [] := by
  unfold freeids
  cases hs0 : st.slot0 <;> cases hs1 : st.slot1 <;>
    simp_all [getSlot, SlotStatus.busy]

/-- If the iteration does not exit fatally, the blocks it submits are
exactly the nonempty chunks it read, in read order. -/
lemma playIter_subs (B BPS : Nat) (ora : Oracle) (chunks : List Chunk)
    (st : St) (hf : (playIter B BPS ora chunks st).fatal = none) :
    submitsOf (playIter B BPS ora chunks st).evs =
      (readsOf (playIter B BPS ora chunks st).evs).filter
        fun c => !c.isEmpty := by
  by_cases hbc : ((getSlot st false).busy = false ∧
      (getSlot st true).busy = false ∧ st.stopping = true)
  · simp only [playIter, if_pos hbc]
    rfl
  · simp only [playIter, if_neg hbc] at hf ⊢
    cases hf1 : (fillPass false B ora chunks (freeids st) st).fatal with
    | some fk =>
      rw [hf1] at hf
      exact (Option.some_ne_none _ hf).elim
    | none =>
      cases hf2 : (waitStep ora
          (fillPass false B ora chunks (freeids st) st).st).fatal with
      | some fk =>
        rw [hf1] at hf
        simp only [hf2] at hf
        exact (Option.some_ne_none _ hf).elim
      | none =>
        simp only [hf1, hf2]
        have h1 := (fillPass_subs false B ora chunks (freeids st) st).1 hf1
        obtain ⟨-, -, -, -, -, -, hread2, hsub2, -, -⟩ :=
          waitStep_evs BPS ora (fillPass false B ora chunks (freeids st) st).st
        simp [sleepEv, h1, hread2, hsub2, List.filter_append]

/-- The warnings of one iteration are exactly its nonempty short reads
compared against the `prevlen` held at iteration entry. -/
lemma playIter_warns (B BPS : Nat) (ora : Oracle) (chunks : List Chunk)
    (st : St) :
    warnsOf (playIter B BPS ora chunks st).evs =
      (readsOf (playIter B BPS ora chunks st).evs).filterMap
        fun c => if st.prevlen < B ∧ 0 < c.length ∧ c.length < B then
          some (c.length, B) else none := by
  by_cases hbc : ((getSlot st false).busy = false ∧
      (getSlot st true).busy = false ∧ st.stopping = true)
  · simp only [playIter, if_pos hbc]
    rfl
  · simp only [playIter, if_neg hbc]
    have h1 := fillPass_warns false B ora chunks (freeids st) st
    obtain ⟨-, -, -, -, -, -, hread2, -, hwarn2, -⟩ :=
      waitStep_evs BPS ora (fillPass false B ora chunks (freeids st) st).st
    cases hf1 : (fillPass false B ora chunks (freeids st) st).fatal with
    | some fk => simp only [hf1]; exact h1
    | none =>
      cases hf2 : (waitStep ora
          (fillPass false B ora chunks (freeids st) st).st).fatal with
      | some fk =>
        simp only [hf1, hf2]
        simp [sleepEv, h1, hread2, hwarn2]
      | none =>
        simp only [hf1, hf2]
        simp [sleepEv, h1, hread2, hwarn2]

@[simp] lemma advance_slot0 (st : St) : (advance st).slot0 = st.slot0 := rfl

@[simp] lemma advance_slot1 (st : St) : (advance st).slot1 = st.slot1 := rfl

@[simp] lemma advance_curblock (st : St) :
    (advance st).curblock = !st.curblock := rfl

@[simp] lemma advance_stopping (st : St) :
    (advance st).stopping = st.stopping := rfl

@[simp] lemma advance_sharedStop (st : St) :
    (advance st).sharedStop = st.sharedStop := rfl

@[simp] lemma advance_prevlen (st : St) :
    (advance st).prevlen = st.readlen := rfl

@[simp] lemma advance_readlen (st : St) :
    (advance st).readlen = st.readlen := rfl

@[simp] lemma advance_divideBase (st : St) :
    (advance st).divideBase = st.divideBase := rfl

@[simp] lemma advance_pos (st : St) : (advance st).pos = st.pos := rfl

@[simp] lemma advance_subCount (st : St) :
    (advance st).subCount = st.subCount := rfl

@[simp] lemma advance_iter (st : St) : (advance st).iter = st.iter + 1 := rfl

lemma getSlot_advance (st : St) (b : Bool) :
    getSlot (advance st) b = getSlot st b := by cases b <;> rfl

@[simp] lemma peaksOk_sleep (v : ℚ) (t : List Ev) (d : Chunk) :
    peaksOk (Ev.sleep v :: t) d = peaksOk t d := rfl

@[simp] lemma peaksOk_wait (s p : Nat) (t : List Ev) (d : Chunk) :
    peaksOk (Ev.wait s p :: t) d = peaksOk t d := rfl

/-- A trace without wait events has no first-poll bumps. -/
lemma incrCount_of_no_waits (es : List Ev) (h : waitsOf es = []) :
    incrCount es = 0 := by
  induction es with
  | nil => rfl
  | cons e t ih =>
    cases e with
    | wait s p => simp [waitsOf, List.filterMap_cons] at h
    | read d => unfold waitsOf incrCount at *; simp_all [List.countP_cons]
    | warn r b => unfold waitsOf incrCount at *; simp_all [List.countP_cons]
    | peak v => unfold waitsOf incrCount at *; simp_all [List.countP_cons]
    | submit s d => unfold waitsOf incrCount at *; simp_all [List.countP_cons]
    | sleep v => unfold waitsOf incrCount at *; simp_all [List.countP_cons]
    | paused => unfold waitsOf incrCount at *; simp_all [List.countP_cons]
    | closeDev => unfold waitsOf incrCount at *; simp_all [List.countP_cons]

/-- The slot body emits no wait events. -/
lemma fillSlot_waits (qt : Bool) (B : Nat) (ora : Oracle) (chunks : List Chunk)
    (i : Bool) (st : St) :
    waitsOf (fillSlot qt B ora chunks i st).evs = [] := by
  by_cases h1 : st.stopping = true
  · simp [fillSlot, h1, waitsOf]
  · by_cases h2 : (readChunk chunks st.pos).length = 0
    · cases qt <;> simp [fillSlot, h1, h2, waitsOf]
    · by_cases hwa : st.prevlen < B ∧ (readChunk chunks st.pos).length < B
      all_goals cases h16 : toInt16 (readChunk chunks st.pos) with
      | none => simp [fillSlot, h1, h2, h16, hwa, waitsOf]
      | some samples =>
        cases hpk : peakOf samples with
        | none => simp [fillSlot, h1, h2, h16, hpk, hwa, waitsOf]
        | some v =>
          by_cases hp : ora.prepFail st.subCount = true
          · simp [fillSlot, h1, h2, h16, hpk, hwa, hp, waitsOf]
          · by_cases hw : ora.writeFail st.subCount = true
            · simp [fillSlot, h1, h2, h16, hpk, hwa, hp, hw, waitsOf]
            · simp [fillSlot, h1, h2, h16, hpk, hwa, hp, hw, waitsOf]

/-- The fill pass emits no wait events. -/
lemma fillPass_waits (qt : Bool) (B : Nat) (ora : Oracle) (chunks : List Chunk)
    (ids : List Bool) (st : St) :
    waitsOf (fillPass qt B ora chunks ids st).evs = [] := by
  induction ids generalizing st with
  | nil => rfl
  | cons i rest ih =>
    by_cases hbrk : (fillSlot qt B ora chunks i st).brk = true
    · simp only [fillPass, hbrk, if_true]
      exact fillSlot_waits qt B ora chunks i st
    · simp only [Bool.not_eq_true] at hbrk
      simp only [fillPass, hbrk, Bool.false_eq_true, if_false]
      rw [waitsOf_append, fillSlot_waits qt B ora chunks i st, ih]
      rfl

/-- The `play` loop breaks right away when every header is reclaimable
and the stop flag is set. -/
lemma playIter_break (B BPS : Nat) (ora : Oracle) (chunks : List Chunk)
    (st : St) (h : (getSlot st false).busy = false ∧
      (getSlot st true).busy = false ∧ st.stopping = true) :
    playIter B BPS ora chunks st = ⟨[], st, none, true⟩ := by
  simp only [playIter, if_pos h]

/-- An iteration entered with the stop flag set and some header still in
flight skips the fill pass and just sleeps and waits on the cursor. -/
lemma playIter_stopping (B BPS : Nat) (ora : Oracle) (chunks : List Chunk)
    (st : St) (h : st.stopping = true)
    (hA : ¬((getSlot st false).busy = false ∧
      (getSlot st true).busy = false ∧ st.stopping = true)) :
    (playIter B BPS ora chunks st).fatal = (waitStep ora st).fatal ∧
    ((waitStep ora st).fatal = none →
      (playIter B BPS ora chunks st).brk = false ∧
      (playIter B BPS ora chunks st).st = advance (waitStep ora st).st) := by
  simp only [playIter, if_neg hA,
    fillPass_stopping false B ora chunks (freeids st) st h]
  cases hf2 : (waitStep ora st).fatal with
  | some fk => simp [hf2]
  | none => simp [hf2]

/-- Round-robin discipline of one iteration: submissions go only to
headers of `freeids`, in ascending order and at most once each; the
iteration waits (if at all) exactly once, on the round-robin cursor; a
completed iteration advances the cursor to the other header. -/
lemma playIter_rr (B BPS : Nat) (ora : Oracle) (chunks : List Chunk)
    (st : St) :
    List.Sublist (submitSlotsOf (playIter B BPS ora chunks st).evs)
      ((freeids st).map slotIdx) ∧
    (waitsOf (playIter B BPS ora chunks st).evs = [] ∨
      ∃ p, 0 < p ∧
        waitsOf (playIter B BPS ora chunks st).evs =
          [(slotIdx st.curblock, p)]) ∧
    ((playIter B BPS ora chunks st).brk = false →
      (playIter B BPS ora chunks st).st.curblock = !st.curblock) ∧
    ((playIter B BPS ora chunks st).brk = false →
      ∃ p, 0 < p ∧ waitsOf (playIter B BPS ora chunks st).evs =
        [(slotIdx st.curblock, p)]) := by
  by_cases hbc : ((getSlot st false).busy = false ∧
      (getSlot st true).busy = false ∧ st.stopping = true)
  · rw [playIter_break B BPS ora chunks st hbc]
    exact ⟨List.nil_sublist _, Or.inl rfl, by simp, by simp⟩
  · simp only [playIter, if_neg hbc]
    have hsub1 := (fillPass_subs false B ora chunks (freeids st) st).2
    have hwnil := fillPass_waits false B ora chunks (freeids st) st
    have hcb1 : (fillPass false B ora chunks (freeids st) st).st.curblock =
        st.curblock :=
      (fillPass_state false B ora chunks (freeids st) st).2.1
    obtain ⟨⟨p, hp, hevs2⟩, -, -, -, -, -, -, hsub2, -, hslots2⟩ :=
      waitStep_evs BPS ora (fillPass false B ora chunks (freeids st) st).st
    have hcbw := (waitStep_state ora
      (fillPass false B ora chunks (freeids st) st).st).2.2.2.2.2.2.2
    cases hf1 : (fillPass false B ora chunks (freeids st) st).fatal with
    | some fk =>
      simp only [hf1]
      exact ⟨hsub1, Or.inl hwnil, by simp, by simp⟩
    | none =>
      cases hf2 : (waitStep ora
          (fillPass false B ora chunks (freeids st) st).st).fatal with
      | some fk =>
        simp only [hf1, hf2]
        refine ⟨by simp [sleepEv, hsub1, hslots2], ?_, by simp, by simp⟩
        refine Or.inr ⟨p, hp, ?_⟩
        simp [sleepEv, hwnil, hevs2, hcb1]
      | none =>
        simp only [hf1, hf2]
        refine ⟨by simp [sleepEv, hsub1, hslots2], ?_, ?_, ?_⟩
        · refine Or.inr ⟨p, hp, ?_⟩
          simp [sleepEv, hwnil, hevs2, hcb1]
        · intro _
          simp [advance_curblock, hcbw, hcb1]
        · intro _
          refine ⟨p, hp, ?_⟩
          simp [sleepEv, hwnil, hevs2, hcb1]

/-- The trace of one iteration satisfies the sleep-duration and peak
checkers, closes no device, and on a non-fatal iteration moves the
walker state (`readlen`, `divideBase`) in lockstep with the state. -/
lemma playIter_walk (B BPS : Nat) (ora : Oracle) (chunks : List Chunk)
    (st : St) :
    sleepsOk BPS (playIter B BPS ora chunks st).evs st.readlen
      st.divideBase = true ∧
    (∀ d, peaksOk (playIter B BPS ora chunks st).evs d = true) ∧
    closeCount (playIter B BPS ora chunks st).evs = 0 ∧
    ((playIter B BPS ora chunks st).fatal = none →
      lastLenAfter (playIter B BPS ora chunks st).evs st.readlen =
        (playIter B BPS ora chunks st).st.readlen ∧
      factorAfter (playIter B BPS ora chunks st).evs st.divideBase =
        (playIter B BPS ora chunks st).st.divideBase) := by
  by_cases hbc : ((getSlot st false).busy = false ∧
      (getSlot st true).busy = false ∧ st.stopping = true)
  · rw [playIter_break B BPS ora chunks st hbc]
    exact ⟨rfl, fun _ => rfl, rfl, fun _ => ⟨rfl, rfl⟩⟩
  · simp only [playIter, if_neg hbc]
    obtain ⟨hfac1, hslp1, hlen1, hpk1, hcl1, -⟩ :=
      fillPass_walk BPS false B ora chunks (freeids st) st
    have hdb1 : (fillPass false B ora chunks (freeids st) st).st.divideBase =
        st.divideBase :=
      (fillPass_state false B ora chunks (freeids st) st).1
    obtain ⟨-, hlen2, hpk2, hslp2, hcl2, -, -, -, -, -⟩ :=
      waitStep_evs BPS ora (fillPass false B ora chunks (freeids st) st).st
    have hrl2 := (waitStep_state ora
      (fillPass false B ora chunks (freeids st) st).st).2.2.2.2.1
    have hfac2 := waitStep_factor ora
      (fillPass false B ora chunks (freeids st) st).st
    cases hf1 : (fillPass false B ora chunks (freeids st) st).fatal with
    | some fk =>
      simp only [hf1]
      exact ⟨hslp1 _ _, hpk1, hcl1, by simp⟩
    | none =>
      have hmid : ∀ t, sleepsOk BPS
          (sleepEv BPS (fillPass false B ora chunks (freeids st) st).st :: t)
          (fillPass false B ora chunks (freeids st) st).st.readlen
          st.divideBase = (decide
            ((fillPass false B ora chunks (freeids st) st).st.readlen /
                (fillPass false B ora chunks (freeids st) st).st.divideBase /
                (BPS : ℚ) =
              ((fillPass false B ora chunks (freeids st) st).st.readlen : ℚ) /
                st.divideBase / (BPS : ℚ)) && sleepsOk BPS t
              (fillPass false B ora chunks (freeids st) st).st.readlen
              st.divideBase) := by
        intro t
        simp [sleepEv, sleepsOk]
      have hsleep : ∀ t, sleepsOk BPS t
            (fillPass false B ora chunks (freeids st) st).st.readlen
            st.divideBase = true →
          sleepsOk BPS
            ((fillPass false B ora chunks (freeids st) st).evs ++
              sleepEv BPS (fillPass false B ora chunks (freeids st) st).st ::
                t) st.readlen st.divideBase = true := by
        intro t ht
        rw [sleepsOk_append, hslp1 _ _, Bool.true_and, hlen1, hfac1]
        rw [hmid t, ht, hdb1]
        simp
      cases hf2 : (waitStep ora
          (fillPass false B ora chunks (freeids st) st).st).fatal with
      | some fk =>
        simp only [hf1, hf2]
        refine ⟨hsleep _ (hslp2 _ _), ?_, ?_, by simp⟩
        · intro d
          rw [peaksOk_append, hpk1 d, Bool.true_and]
          simp only [sleepEv, peaksOk_sleep]
          exact hpk2 _
        · simp [sleepEv, hcl1, hcl2]
      | none =>
        simp only [hf1, hf2]
        refine ⟨hsleep _ (hslp2 _ _), ?_, ?_, ?_⟩
        · intro d
          rw [peaksOk_append, hpk1 d, Bool.true_and]
          simp only [sleepEv, peaksOk_sleep]
          exact hpk2 _
        · simp [sleepEv, hcl1, hcl2]
        · intro _
          constructor
          · rw [lastLenAfter_append, hlen1]
            have : lastLenAfter (sleepEv BPS
                (fillPass false B ora chunks (freeids st) st).st ::
                (waitStep ora
                  (fillPass false B ora chunks (freeids st) st).st).evs)
                (fillPass false B ora chunks (freeids st) st).st.readlen =
                (fillPass false B ora chunks (freeids st) st).st.readlen := by
              simp only [sleepEv, lastLenAfter]
              exact hlen2 _
            rw [this, advance_readlen, hrl2]
          · rw [factorAfter_append, hfac1]
            have : factorAfter (sleepEv BPS
                (fillPass false B ora chunks (freeids st) st).st ::
                (waitStep ora
                  (fillPass false B ora chunks (freeids st) st).st).evs)
                st.divideBase =
                factorAfter (waitStep ora
                  (fillPass false B ora chunks (freeids st) st).st).evs
                  st.divideBase := by
              simp only [sleepEv, factorAfter]
            rw [this, advance_divideBase, hdb1.symm]
            exact (hfac2.1 hf2).1

/-- The correction factor over one iteration: never decreased, and on a
non-fatal iteration increased by exactly `0.01` per first-poll completion
wait (of which the iteration has at most one). -/
lemma playIter_factor (B BPS : Nat) (ora : Oracle) (chunks : List Chunk)
    (st : St) :
    ((playIter B BPS ora chunks st).fatal = none →
      (playIter B BPS ora chunks st).st.divideBase = st.divideBase +
        (incrCount (playIter B BPS ora chunks st).evs : ℚ) / 100) ∧
    st.divideBase ≤ (playIter B BPS ora chunks st).st.divideBase := by
  by_cases hbc : ((getSlot st false).busy = false ∧
      (getSlot st true).busy = false ∧ st.stopping = true)
  · rw [playIter_break B BPS ora chunks st hbc]
    exact ⟨fun _ => by simp, le_refl _⟩
  · simp only [playIter, if_neg hbc]
    have hw1 := fillPass_waits false B ora chunks (freeids st) st
    have hi1 : incrCount (fillPass false B ora chunks (freeids st) st).evs = 0 :=
      incrCount_of_no_waits _ hw1
    have hdb1 : (fillPass false B ora chunks (freeids st) st).st.divideBase =
        st.divideBase :=
      (fillPass_state false B ora chunks (freeids st) st).1
    have hfac2 := waitStep_factor ora
      (fillPass false B ora chunks (freeids st) st).st
    cases hf1 : (fillPass false B ora chunks (freeids st) st).fatal with
    | some fk =>
      simp only [hf1]
      exact ⟨fun h => by simp at h, le_of_eq hdb1.symm⟩
    | none =>
      cases hf2 : (waitStep ora
          (fillPass false B ora chunks (freeids st) st).st).fatal with
      | some fk =>
        simp only [hf1, hf2]
        refine ⟨fun h => by simp at h, ?_⟩
        calc st.divideBase =
            (fillPass false B ora chunks (freeids st) st).st.divideBase :=
              hdb1.symm
          _ ≤ _ := hfac2.2
      | none =>
        simp only [hf1, hf2]
        constructor
        · intro _
          rw [advance_divideBase, (hfac2.1 hf2).2, hdb1]
          simp [sleepEv, hi1]
        · rw [advance_divideBase]
          exact le_of_eq_of_le hdb1.symm hfac2.2

/-- A completed (non-fatal, non-breaking) iteration flips the cursor,
counts one more iteration, records the last read length in `prevlen`,
and leaves the header it waited on reclaimable. -/
lemma playIter_adv (B BPS : Nat) (ora : Oracle) (chunks : List Chunk)
    (st : St) (hf : (playIter B BPS ora chunks st).fatal = none)
    (hbrk : (playIter B BPS ora chunks st).brk = false) :
    (playIter B BPS ora chunks st).st.curblock = !st.curblock ∧
    (playIter B BPS ora chunks st).st.iter = st.iter + 1 ∧
    (playIter B BPS ora chunks st).st.prevlen =
      (playIter B BPS ora chunks st).st.readlen ∧
    getSlot (playIter B BPS ora chunks st).st st.curblock ≠ .inflight ∧
    (playIter B BPS ora chunks st).st.stopping =
      (fillPass false B ora chunks (freeids st) st).st.stopping := by
  by_cases hbc : ((getSlot st false).busy = false ∧
      (getSlot st true).busy = false ∧ st.stopping = true)
  · rw [playIter_break B BPS ora chunks st hbc] at hbrk
    exact absurd hbrk (by simp)
  · simp only [playIter, if_neg hbc] at hf hbrk ⊢
    have hst1 := fillPass_state false B ora chunks (freeids st) st
    have hstw := waitStep_state ora
      (fillPass false B ora chunks (freeids st) st).st
    have hslw := waitStep_slots ora
      (fillPass false B ora chunks (freeids st) st).st
    cases hf1 : (fillPass false B ora chunks (freeids st) st).fatal with
    | some fk =>
      rw [hf1] at hf
      exact (Option.some_ne_none _ hf).elim
    | none =>
      cases hf2 : (waitStep ora
          (fillPass false B ora chunks (freeids st) st).st).fatal with
      | some fk =>
        rw [hf1] at hf
        simp only [hf2] at hf
        exact (Option.some_ne_none _ hf).elim
      | none =>
        simp only [hf1, hf2]
        refine ⟨?_, ?_, ?_, ?_, ?_⟩
        · rw [advance_curblock, hstw.2.2.2.2.2.2.2, hst1.2.1]
        · rw [advance_iter, hstw.2.2.2.2.2.1, hst1.2.2.2.1]
        · rw [advance_prevlen, advance_readlen]
        · rw [getSlot_advance]
          have := hslw.1 hf2
          rwa [hst1.2.1] at this
        · rw [advance_stopping, hstw.2.1]

/-- Read-position and stop-flag behaviour over one iteration. -/
lemma playIter_pos (B BPS : Nat) (ora : Oracle) (chunks : List Chunk)
    (st : St) :
    (st.stopping = false →
      ¬(getSlot st false = .inflight ∧ getSlot st true = .inflight) →
      ¬((getSlot st false).busy = false ∧ (getSlot st true).busy = false ∧
        st.stopping = true) →
      st.pos < (playIter B BPS ora chunks st).st.pos) ∧
    ((playIter B BPS ora chunks st).st.stopping = false →
      st.pos ≤ stopIdx chunks →
      (playIter B BPS ora chunks st).st.pos ≤ stopIdx chunks) ∧
    (st.stopping = true →
      (playIter B BPS ora chunks st).st.stopping = true) ∧
    st.pos ≤ (playIter B BPS ora chunks st).st.pos := by
  by_cases hbc : ((getSlot st false).busy = false ∧
      (getSlot st true).busy = false ∧ st.stopping = true)
  · rw [playIter_break B BPS ora chunks st hbc]
    exact ⟨fun _ _ hn => absurd hbc hn, fun _ h => h, fun h => h, le_refl _⟩
  · simp only [playIter, if_neg hbc]
    have hfp := fillPass_pos false B ora chunks (freeids st) st
    have hst1 := fillPass_state false B ora chunks (freeids st) st
    have hstw := waitStep_state ora
      (fillPass false B ora chunks (freeids st) st).st
    cases hf1 : (fillPass false B ora chunks (freeids st) st).fatal with
    | some fk =>
      simp only [hf1]
      exact ⟨fun hs hn _ => hfp.1 hs (freeids_ne_nil st hn),
        fun h1 h2 => hfp.2 rfl h1 h2,
        fun h => by rw [fillPass_stopping false B ora chunks _ st h]; exact h,
        hst1.2.2.2.2⟩
    | none =>
      cases hf2 : (waitStep ora
          (fillPass false B ora chunks (freeids st) st).st).fatal with
      | some fk =>
        simp only [hf1, hf2]
        refine ⟨fun hs hn _ => ?_, fun h1 h2 => ?_, fun h => ?_, ?_⟩
        · rw [hstw.1]
          exact hfp.1 hs (freeids_ne_nil st hn)
        · rw [hstw.1]
          rw [hstw.2.1] at h1
          exact hfp.2 rfl h1 h2
        · rw [hstw.2.1, fillPass_stopping false B ora chunks _ st h]
          exact h
        · rw [hstw.1]; exact hst1.2.2.2.2
      | none =>
        simp only [hf1, hf2]
        refine ⟨fun hs hn _ => ?_, fun h1 h2 => ?_, fun h => ?_, ?_⟩
        · rw [advance_pos, hstw.1]
          exact hfp.1 hs (freeids_ne_nil st hn)
        · rw [advance_pos, hstw.1]
          rw [advance_stopping, hstw.2.1] at h1
          exact hfp.2 rfl h1 h2
        · rw [advance_stopping, hstw.2.1,
            fillPass_stopping false B ora chunks _ st h]
          exact h
        · rw [advance_pos, hstw.1]; exact hst1.2.2.2.2

/-! ### No fatal exits under an error-free device and even chunks -/

/-- `frombytes` succeeds exactly on even byte counts, producing one int16
sample per byte pair. -/
lemma toInt16_some : ∀ d : Chunk, d.length % 2 = 0 →
    ∃ s, toInt16 d = some s ∧ 2 * s.length = d.length
  | [], _ => ⟨[], rfl, rfl⟩
  | [x], h => by simp at h
  | a :: b :: t, h => by
    have ht : t.length % 2 = 0 := by
      have hlen : (a :: b :: t).length = t.length + 2 := by simp
      rw [hlen] at h
      omega
    obtain ⟨s, hs, hl⟩ := toInt16_some t ht
    refine ⟨int16OfBytes a b :: s, by simp [toInt16, hs], ?_⟩
    simp only [List.length_cons]
    omega

/-- Under the even-chunk precondition every read has an even length. -/
lemma readChunk_even {chunks : List Chunk} (hEv : evenChunks chunks)
    (p : Nat) : (readChunk chunks p).length % 2 = 0 := by
  unfold readChunk
  by_cases hp : p < chunks.length
  · rw [List.getD_eq_get _ _ hp]
    exact hEv _ (List.get_mem _ _ _)
  · rw [List.getD_eq_default _ _ (le_of_not_lt hp)]
    rfl

/-- With an error-free device and even chunks, the slot body never exits
fatally. -/
lemma fillSlot_noFatal (qt : Bool) (B : Nat) {ora : Oracle}
    {chunks : List Chunk} (i : Bool) (st : St) (hEF : ora.errFree)
    (hEv : evenChunks chunks) :
    (fillSlot qt B ora chunks i st).fatal = none := by
  by_cases h1 : st.stopping = true
  · simp [fillSlot, h1]
  · by_cases h2 : (readChunk chunks st.pos).length = 0
    · cases qt <;> simp [fillSlot, h1, h2]
    · obtain ⟨s, hs, hl⟩ := toInt16_some _ (readChunk_even hEv st.pos)
      have hsne : s ≠ [] := by
        intro hnil
        rw [hnil] at hl
        simp at hl
        omega
      obtain ⟨a, t, rfl⟩ : ∃ a t, s = a :: t := by
        cases s with
        | nil => exact absurd rfl hsne
        | cons a t => exact ⟨a, t, rfl⟩
      simp [fillSlot, h1, h2, hs, peakOf, hEF.1 st.subCount,
        hEF.2.1 st.subCount]

/-- With an error-free device and even chunks, the fill pass never exits
fatally. -/
lemma fillPass_noFatal (qt : Bool) (B : Nat) {ora : Oracle}
    {chunks : List Chunk} (ids : List Bool) (st : St) (hEF : ora.errFree)
    (hEv : evenChunks chunks) :
    (fillPass qt B ora chunks ids st).fatal = none := by
  induction ids generalizing st with
  | nil => rfl
  | cons i rest ih =>
    by_cases hbrk : (fillSlot qt B ora chunks i st).brk = true
    · simp only [fillPass, hbrk, if_true]
      exact fillSlot_noFatal qt B i st hEF hEv
    · simp only [Bool.not_eq_true] at hbrk
      simp only [fillPass, hbrk, Bool.false_eq_true, if_false]
      exact ih _

/-- With an error-free device and even chunks, a `play` iteration never
exits fatally. -/
lemma playIter_noFatal (B BPS : Nat) {ora : Oracle} {chunks : List Chunk}
    (st : St) (hEF : ora.errFree) (hEv : evenChunks chunks) :
    (playIter B BPS ora chunks st).fatal = none := by
  by_cases hbc : ((getSlot st false).busy = false ∧
      (getSlot st true).busy = false ∧ st.stopping = true)
  · rw [playIter_break B BPS ora chunks st hbc]
  · simp only [playIter, if_neg hbc]
    have hf1 := fillPass_noFatal false B (freeids st) st hEF hEv
    have hf2 := (waitStep_fatal ora
      (fillPass false B ora chunks (freeids st) st).st).1
      (hEF.2.2 _)
    simp only [hf1, hf2]

/-! ### Loop-level facts for `play` -/

/-- Unfolding: the loop breaks when every header is reclaimable and the
stop flag is set. -/
lemma playLoop_break (B BPS : Nat) (ora : Oracle) (chunks : List Chunk)
    (n : Nat) (st : St) (hA : (getSlot st false).busy = false ∧
      (getSlot st true).busy = false ∧ st.stopping = true) :
    playLoop B BPS ora chunks (n + 1) st = ⟨[], st, .ok⟩ := by
  simp only [playLoop, playIter_break B BPS ora chunks st hA]
  simp

/-- Unfolding: a non-fatal, non-breaking iteration is followed by the
loop on the advanced state. -/
lemma playLoop_step (B BPS : Nat) (ora : Oracle) (chunks : List Chunk)
    (n : Nat) (st : St)
    (hf : (playIter B BPS ora chunks st).fatal = none)
    (hbrk : (playIter B BPS ora chunks st).brk = false) :
    playLoop B BPS ora chunks (n + 1) st =
      ⟨(playIter B BPS ora chunks st).evs ++
          (playLoop B BPS ora chunks n (playIter B BPS ora chunks st).st).evs,
        (playLoop B BPS ora chunks n (playIter B BPS ora chunks st).st).st,
        (playLoop B BPS ora chunks n
          (playIter B BPS ora chunks st).st).out⟩ := by
  simp only [playLoop, hf, hbrk, Bool.false_eq_true, if_false]

/-- A breaking iteration that is not fatal is the regular termination:
it requires the stop flag. -/
lemma playIter_brk_stopping (B BPS : Nat) (ora : Oracle) (chunks : List Chunk)
    (st : St) (hf : (playIter B BPS ora chunks st).fatal = none)
    (hbrk : (playIter B BPS ora chunks st).brk = true) :
    st.stopping = true ∧ playIter B BPS ora chunks st = ⟨[], st, none, true⟩ := by
  by_cases hbc : ((getSlot st false).busy = false ∧
      (getSlot st true).busy = false ∧ st.stopping = true)
  · exact ⟨hbc.2.2, playIter_break B BPS ora chunks st hbc⟩
  · exfalso
    simp only [playIter, if_neg hbc] at hf hbrk
    cases hf1 : (fillPass false B ora chunks (freeids st) st).fatal with
    | some fk => rw [hf1] at hf; exact Option.some_ne_none _ hf
    | none =>
      cases hf2 : (waitStep ora
          (fillPass false B ora chunks (freeids st) st).st).fatal with
      | some fk =>
        rw [hf1] at hf
        simp only [hf2] at hf
        exact Option.some_ne_none _ hf
      | none =>
        rw [hf1] at hbrk
        simp only [hf2] at hbrk
        exact Bool.false_ne_true hbrk

/-- With an error-free device and even chunks the loop never dies: it
either terminates regularly or runs out of fuel. -/
lemma playLoop_noFatal (B BPS : Nat) {ora : Oracle} {chunks : List Chunk}
    (hEF : ora.errFree) (hEv : evenChunks chunks) :
    ∀ fuel st, (playLoop B BPS ora chunks fuel st).out = .ok ∨
      (playLoop B BPS ora chunks fuel st).out = .fuelOut := by
  intro fuel
  induction fuel with
  | zero => exact fun st => Or.inr rfl
  | succ n ih =>
    intro st
    have hf := playIter_noFatal B BPS st hEF hEv
    by_cases hbrk : (playIter B BPS ora chunks st).brk = true
    · simp [playLoop, hf, hbrk]
    · simp only [Bool.not_eq_true] at hbrk
      rw [playLoop_step B BPS ora chunks n st hf hbrk]
      exact ih _

/-- Exact-once byte accounting over the whole loop: with an error-free
device and even chunks, the submitted blocks are the nonempty read
chunks, in order. -/
lemma playLoop_subs (B BPS : Nat) {ora : Oracle} {chunks : List Chunk}
    (hEF : ora.errFree) (hEv : evenChunks chunks) :
    ∀ fuel st, submitsOf (playLoop B BPS ora chunks fuel st).evs =
      (readsOf (playLoop B BPS ora chunks fuel st).evs).filter
        fun c => !c.isEmpty := by
  intro fuel
  induction fuel with
  | zero => exact fun st => rfl
  | succ n ih =>
    intro st
    have hf := playIter_noFatal B BPS st hEF hEv
    by_cases hbrk : (playIter B BPS ora chunks st).brk = true
    · simp only [playLoop, hf, hbrk, if_true]
      exact playIter_subs B BPS ora chunks st hf
    · simp only [Bool.not_eq_true] at hbrk
      rw [playLoop_step B BPS ora chunks n st hf hbrk]
      simp only [submitsOf_append, readsOf_append, List.filter_append]
      rw [playIter_subs B BPS ora chunks st hf, ih _]

/-- Every sleep of the whole loop trace matches the contract
`lastReadLen / divideBase / BYTESPERSEC` with the factor tracked through
the first-poll bumps.  This needs no device or chunk assumptions. -/
lemma playLoop_sleeps (B BPS : Nat) (ora : Oracle) (chunks : List Chunk) :
    ∀ fuel st, sleepsOk BPS (playLoop B BPS ora chunks fuel st).evs
      st.readlen st.divideBase = true := by
  intro fuel
  induction fuel with
  | zero => exact fun st => rfl
  | succ n ih =>
    intro st
    have hw := playIter_walk B BPS ora chunks st
    cases hf : (playIter B BPS ora chunks st).fatal with
    | some fk =>
      simp only [playLoop, hf]
      exact hw.1
    | none =>
      by_cases hbrk : (playIter B BPS ora chunks st).brk = true
      · simp only [playLoop, hf, hbrk, if_true]
        exact hw.1
      · simp only [Bool.not_eq_true] at hbrk
        rw [playLoop_step B BPS ora chunks n st hf hbrk]
        simp only [sleepsOk_append, hw.1, Bool.true_and,
          (hw.2.2.2 hf).1, (hw.2.2.2 hf).2]
        exact ih _

/-- Every peak of the whole loop trace is the int16 maximum of the most
recent read.  This needs no device or chunk assumptions. -/
lemma playLoop_peaks (B BPS : Nat) (ora : Oracle) (chunks : List Chunk) :
    ∀ fuel st d, peaksOk (playLoop B BPS ora chunks fuel st).evs d = true := by
  intro fuel
  induction fuel with
  | zero => exact fun st d => rfl
  | succ n ih =>
    intro st d
    have hw := playIter_walk B BPS ora chunks st
    cases hf : (playIter B BPS ora chunks st).fatal with
    | some fk =>
      simp only [playLoop, hf]
      exact hw.2.1 d
    | none =>
      by_cases hbrk : (playIter B BPS ora chunks st).brk = true
      · simp only [playLoop, hf, hbrk, if_true]
        exact hw.2.1 d
      · simp only [Bool.not_eq_true] at hbrk
        rw [playLoop_step B BPS ora chunks n st hf hbrk]
        rw [peaksOk_append, hw.2.1 d, Bool.true_and]
        exact ih _ _

/-- The loop itself never closes the device (closing happens only in the
separate `close()` method). -/
lemma playLoop_close (B BPS : Nat) (ora : Oracle) (chunks : List Chunk) :
    ∀ fuel st, closeCount (playLoop B BPS ora chunks fuel st).evs = 0 := by
  intro fuel
  induction fuel with
  | zero => exact fun st => rfl
  | succ n ih =>
    intro st
    have hw := playIter_walk B BPS ora chunks st
    cases hf : (playIter B BPS ora chunks st).fatal with
    | some fk =>
      simp only [playLoop, hf]
      exact hw.2.2.1
    | none =>
      by_cases hbrk : (playIter B BPS ora chunks st).brk = true
      · simp only [playLoop, hf, hbrk, if_true]
        exact hw.2.2.1
      · simp only [Bool.not_eq_true] at hbrk
        rw [playLoop_step B BPS ora chunks n st hf hbrk]
        rw [closeCount_append, hw.2.2.1, ih _]

/-- With an error-free device and even chunks the final correction
factor is the initial one plus `0.01` per first-poll completion wait of
the trace. -/
lemma playLoop_factor (B BPS : Nat) {ora : Oracle} {chunks : List Chunk}
    (hEF : ora.errFree) (hEv : evenChunks chunks) :
    ∀ fuel st, (playLoop B BPS ora chunks fuel st).st.divideBase =
      st.divideBase +
        (incrCount (playLoop B BPS ora chunks fuel st).evs : ℚ) / 100 := by
  intro fuel
  induction fuel with
  | zero => intro st; simp [playLoop]
  | succ n ih =>
    intro st
    have hf := playIter_noFatal B BPS st hEF hEv
    have hfac := (playIter_factor B BPS ora chunks st).1 hf
    by_cases hbrk : (playIter B BPS ora chunks st).brk = true
    · simp only [playLoop, hf, hbrk, if_true]
      exact hfac
    · simp only [Bool.not_eq_true] at hbrk
      rw [playLoop_step B BPS ora chunks n st hf hbrk]
      simp only [incrCount_append]
      rw [ih _, hfac]
      push_cast
      ring

/-- The correction factor never decreases across the whole loop, under
any device behaviour. -/
lemma playLoop_mono (B BPS : Nat) (ora : Oracle) (chunks : List Chunk) :
    ∀ fuel st, st.divideBase ≤
      (playLoop B BPS ora chunks fuel st).st.divideBase := by
  intro fuel
  induction fuel with
  | zero => exact fun st => le_refl _
  | succ n ih =>
    intro st
    have hmono := (playIter_factor B BPS ora chunks st).2
    cases hf : (playIter B BPS ora chunks st).fatal with
    | some fk =>
      simp only [playLoop, hf]
      exact hmono
    | none =>
      by_cases hbrk : (playIter B BPS ora chunks st).brk = true
      · simp only [playLoop, hf, hbrk, if_true]
        exact hmono
      · simp only [Bool.not_eq_true] at hbrk
        rw [playLoop_step B BPS ora chunks n st hf hbrk]
        exact le_trans hmono (ih _)

/-- Advancing the cursor by one flips the parity of the waited header. -/
lemma slotIdx_flip (b : Bool) (k : Nat) :
    (slotIdx b + (k + 1)) % 2 = (slotIdx (!b) + k) % 2 := by
  cases b
  · show (0 + (k + 1)) % 2 = (1 + k) % 2
    omega
  · show (1 + (k + 1)) % 2 = (0 + k) % 2
    omega

/-- Peeling one round-robin wait off the expected cursor sequence. -/
lemma rrSeq_succ (b : Bool) (n : Nat) :
    (List.range (n + 1)).map (fun k => (slotIdx b + k) % 2) =
      slotIdx b :: (List.range n).map (fun k => (slotIdx (!b) + k) % 2) := by
  rw [List.range_succ_eq_map, List.map_cons, List.map_map]
  have h0 : (slotIdx b + 0) % 2 = slotIdx b := by
    cases b <;> simp [slotIdx]
  have hfun : ((fun k => (slotIdx b + k) % 2) ∘ Nat.succ) =
      fun k => (slotIdx (!b) + k) % 2 := by
    funext k
    exact slotIdx_flip b k
  rw [h0, hfun]

lemma slotIdx_lt (b : Bool) : slotIdx b < 2 := by cases b <;> decide

lemma slotIdx_mod (b : Bool) : slotIdx b % 2 = slotIdx b :=
  Nat.mod_eq_of_lt (slotIdx_lt b)

/-- The sequence of headers waited on over the whole loop is exactly the
round-robin rotation of the cursor: starting from the current cursor and
alternating `mod 2` each iteration, regardless of device behaviour. -/
lemma playLoop_waitSeq (B BPS : Nat) (ora : Oracle) (chunks : List Chunk) :
    ∀ fuel st,
      (waitsOf (playLoop B BPS ora chunks fuel st).evs).map Prod.fst =
        (List.range
          (waitsOf (playLoop B BPS ora chunks fuel st).evs).length).map
          fun k => (slotIdx st.curblock + k) % 2 := by
  intro fuel
  induction fuel with
  | zero => intro st; simp [playLoop]
  | succ n ih =>
    intro st
    have hrr := playIter_rr B BPS ora chunks st
    have hone : ∀ p : Nat,
        waitsOf (playIter B BPS ora chunks st).evs =
          [(slotIdx st.curblock, p)] →
        (waitsOf (playIter B BPS ora chunks st).evs).map Prod.fst =
          (List.range
            (waitsOf (playIter B BPS ora chunks st).evs).length).map
            fun k => (slotIdx st.curblock + k) % 2 := by
      intro p hw
      rw [hw]
      rw [show (([(slotIdx st.curblock, p)] : List (Nat × Nat))).length = 1
        from rfl, show List.range 1 = [0] by decide]
      simp [slotIdx_mod]
    cases hf : (playIter B BPS ora chunks st).fatal with
    | some fk =>
      simp only [playLoop, hf]
      rcases hrr.2.1 with hw | ⟨p, _, hw⟩
      · rw [hw]; rfl
      · exact hone p hw
    | none =>
      by_cases hbrk : (playIter B BPS ora chunks st).brk = true
      · simp only [playLoop, hf, hbrk, if_true]
        rcases hrr.2.1 with hw | ⟨p, _, hw⟩
        · rw [hw]; rfl
        · exact hone p hw
      · simp only [Bool.not_eq_true] at hbrk
        rw [playLoop_step B BPS ora chunks n st hf hbrk]
        rw [waitsOf_append]
        obtain ⟨p, -, hiter⟩ := hrr.2.2.2 hbrk
        have hcb := hrr.2.2.1 hbrk
        have hrest := ih (playIter B BPS ora chunks st).st
        rw [hcb] at hrest
        rw [hiter, List.singleton_append, List.map_cons, List.length_cons,
          rrSeq_succ, hrest]

/-- `dwFlags in (0, WHDR_DONE)` as a status statement. -/
lemma busy_false_iff (s : SlotStatus) : s.busy = false ↔ s ≠ .inflight := by
  cases s <;> simp [SlotStatus.busy]

/-- Termination of the stopping phase: once the stop flag is set, an
error-free device lets the loop drain and break within three more
iterations (two headers to reclaim plus the final check). -/
lemma playLoop_stopPhase (B BPS : Nat) {ora : Oracle} (chunks : List Chunk)
    (hEF : ora.errFree) :
    ∀ k st, st.stopping = true →
      (playLoop B BPS ora chunks (k + 3) st).out = .ok ∧
      getSlot (playLoop B BPS ora chunks (k + 3) st).st false ≠ .inflight ∧
      getSlot (playLoop B BPS ora chunks (k + 3) st).st true ≠ .inflight := by
  intro k st hstop
  have hwf : ∀ s : St, (waitStep ora s).fatal = none :=
    fun s => (waitStep_fatal ora s).1 (hEF.2.2 _)
  by_cases hA : ((getSlot st false).busy = false ∧
      (getSlot st true).busy = false ∧ st.stopping = true)
  · rw [show k + 3 = (k + 2) + 1 from rfl,
      playLoop_break B BPS ora chunks (k + 2) st hA]
    exact ⟨rfl, (busy_false_iff _).1 hA.1, (busy_false_iff _).1 hA.2.1⟩
  · have hit := playIter_stopping B BPS ora chunks st hstop hA
    have hf1 : (playIter B BPS ora chunks st).fatal = none := by
      rw [hit.1]; exact hwf st
    obtain ⟨hbrk1, hst1⟩ := hit.2 (hwf st)
    rw [show k + 3 = (k + 2) + 1 from rfl,
      playLoop_step B BPS ora chunks (k + 2) st hf1 hbrk1]
    set st1 := (playIter B BPS ora chunks st).st with hst1def
    have hs1stop : st1.stopping = true := by
      rw [hst1, advance_stopping, (waitStep_state ora st).2.1]
      exact hstop
    have hs1cb : getSlot st1 st.curblock ≠ .inflight := by
      rw [hst1, getSlot_advance]
      exact (waitStep_slots ora st).1 (hwf st)
    have hs1other : ∀ b, b ≠ st.curblock → getSlot st1 b = getSlot st b := by
      intro b hb
      rw [hst1, getSlot_advance]
      exact (waitStep_slots ora st).2 b hb
    have hs1cur : st1.curblock = !st.curblock := by
      rw [hst1, advance_curblock, (waitStep_state ora st).2.2.2.2.2.2.2]
    by_cases hA1 : ((getSlot st1 false).busy = false ∧
        (getSlot st1 true).busy = false ∧ st1.stopping = true)
    · rw [show k + 2 = (k + 1) + 1 from rfl,
        playLoop_break B BPS ora chunks (k + 1) st1 hA1]
      exact ⟨rfl, (busy_false_iff _).1 hA1.1, (busy_false_iff _).1 hA1.2.1⟩
    · have hit1 := playIter_stopping B BPS ora chunks st1 hs1stop hA1
      have hf2 : (playIter B BPS ora chunks st1).fatal = none := by
        rw [hit1.1]; exact hwf st1
      obtain ⟨hbrk2, hst2⟩ := hit1.2 (hwf st1)
      rw [show k + 2 = (k + 1) + 1 from rfl,
        playLoop_step B BPS ora chunks (k + 1) st1 hf2 hbrk2]
      set st2 := (playIter B BPS ora chunks st1).st with hst2def
      have hs2stop : st2.stopping = true := by
        rw [hst2, advance_stopping, (waitStep_state ora st1).2.1]
        exact hs1stop
      have hs2cb1 : getSlot st2 st1.curblock ≠ .inflight := by
        rw [hst2, getSlot_advance]
        exact (waitStep_slots ora st1).1 (hwf st1)
      have hs2cb : getSlot st2 st.curblock ≠ .inflight := by
        rw [hst2, getSlot_advance, (waitStep_slots ora st1).2 st.curblock
          (by rw [hs1cur]; cases st.curblock <;> simp)]
        exact hs1cb
      have hA2 : ((getSlot st2 false).busy = false ∧
          (getSlot st2 true).busy = false ∧ st2.stopping = true) := by
        refine ⟨?_, ?_, hs2stop⟩
        · rw [busy_false_iff]
          cases hc : st.curblock
          · rw [hc] at hs2cb; exact hs2cb
          · rw [hc] at hs1cur
            rw [hs1cur] at hs2cb1
            simpa using hs2cb1
        · rw [busy_false_iff]
          cases hc : st.curblock
          · rw [hc] at hs1cur
            rw [hs1cur] at hs2cb1
            simpa using hs2cb1
          · rw [hc] at hs2cb; exact hs2cb
      rw [show k + 1 = k + 1 from rfl,
        playLoop_break B BPS ora chunks k st2 hA2]
      exact ⟨rfl, (busy_false_iff _).1 hA2.1, (busy_false_iff _).1 hA2.2.1⟩

/-- Main termination argument for `play`: with an error-free device and
even chunks, enough fuel lets the loop reach the end-of-stream read,
drain both headers, and break with every header reclaimable. -/
lemma playLoop_term (B BPS : Nat) {ora : Oracle} {chunks : List Chunk}
    (hEF : ora.errFree) (hEv : evenChunks chunks) :
    ∀ n k st, stopIdx chunks + 1 ≤ st.pos + n →
      (st.stopping = false → st.pos ≤ stopIdx chunks) →
      ¬(getSlot st false = .inflight ∧ getSlot st true = .inflight) →
      (playLoop B BPS ora chunks (n + 3 + k) st).out = .ok ∧
      getSlot (playLoop B BPS ora chunks (n + 3 + k) st).st false ≠
        .inflight ∧
      getSlot (playLoop B BPS ora chunks (n + 3 + k) st).st true ≠
        .inflight := by
  intro n
  induction n with
  | zero =>
    intro k st hn hpos hnb
    by_cases hstop : st.stopping = true
    · rw [show 0 + 3 + k = k + 3 by omega]
      exact playLoop_stopPhase B BPS chunks hEF k st hstop
    · exfalso
      have := hpos (by simpa using hstop)
      omega
  | succ m ih =>
    intro k st hn hpos hnb
    by_cases hstop : st.stopping = true
    · rw [show m + 1 + 3 + k = (m + 1 + k) + 3 by omega]
      exact playLoop_stopPhase B BPS chunks hEF (m + 1 + k) st hstop
    · have hst : st.stopping = false := by simpa using hstop
      have hf := playIter_noFatal B BPS st hEF hEv
      by_cases hbrk : (playIter B BPS ora chunks st).brk = true
      · exact absurd (playIter_brk_stopping B BPS ora chunks st hf hbrk).1
          (by rw [hst]; simp)
      · simp only [Bool.not_eq_true] at hbrk
        have hadv := playIter_adv B BPS ora chunks st hf hbrk
        have hppos := playIter_pos B BPS ora chunks st
        have hnA : ¬((getSlot st false).busy = false ∧
            (getSlot st true).busy = false ∧ st.stopping = true) := by
          intro hA
          rw [hst] at hA
          exact Bool.false_ne_true hA.2.2
        have hlt : st.pos < (playIter B BPS ora chunks st).st.pos :=
          hppos.1 hst hnb hnA
        have hnb1 : ¬(getSlot (playIter B BPS ora chunks st).st false =
            .inflight ∧
            getSlot (playIter B BPS ora chunks st).st true = .inflight) := by
          intro hboth
          cases hc : st.curblock
          · exact hadv.2.2.2.1 (by rw [hc]; exact hboth.1)
          · exact hadv.2.2.2.1 (by rw [hc]; exact hboth.2)
        rw [show m + 1 + 3 + k = (m + 3 + k) + 1 by omega,
          playLoop_step B BPS ora chunks (m + 3 + k) st hf hbrk]
        exact ih k (playIter B BPS ora chunks st).st (by omega)
          (fun hs1 => hppos.2.1 hs1 (hpos hst)) hnb1

/-- `play` on any finite chunk sequence: with an error-free device and
even chunks the loop terminates regularly within `chunks.length + 5`
iterations, and at the break every header is reclaimable. -/
lemma playRun_term (B BPS : Nat) {ora : Oracle} {chunks : List Chunk}
    (hEF : ora.errFree) (hEv : evenChunks chunks) :
    (playRun B BPS ora chunks (chunks.length + 5)).out = .ok ∧
    getSlot (playRun B BPS ora chunks (chunks.length + 5)).st false ≠
      .inflight ∧
    getSlot (playRun B BPS ora chunks (chunks.length + 5)).st true ≠
      .inflight := by
  have hsle := stopIdx_le chunks
  have h := playLoop_term B BPS hEF hEv (stopIdx chunks + 1)
    (chunks.length + 1 - stopIdx chunks) initSt
    (by simp [initSt])
    (by intro _; simp [initSt])
    (by simp [initSt, getSlot])
  rw [show stopIdx chunks + 1 + 3 + (chunks.length + 1 - stopIdx chunks) =
    chunks.length + 5 by omega] at h
  exact h

/-! ### Facts about the Qt `run` loop -/

/-- The same external schedule with every pause suspension removed. -/
def depause (sched : Nat → Nat × Bool) : Nat → Nat × Bool :=
  fun k => (0, (sched k).2)

/-- Number of pause suspensions in a trace. -/
def pausedCount (es : List Ev) : Nat := es.countP Ev.isPaused

@[simp] lemma pausedCount_nil : pausedCount [] = 0 := rfl

@[simp] lemma pausedCount_append (a b : List Ev) :
    pausedCount (a ++ b) = pausedCount a + pausedCount b := by
  unfold pausedCount; exact List.countP_append _ a b

/-- A trace without pause events is unchanged by removing them. -/
lemma filter_of_no_paused (es : List Ev) (h : pausedCount es = 0) :
    es.filter (fun e => !e.isPaused) = es := by
  induction es with
  | nil => rfl
  | cons e t ih =>
    unfold pausedCount at h ih
    rw [List.countP_cons] at h
    by_cases hp : e.isPaused = true
    · simp [hp] at h
    · simp only [Bool.not_eq_true] at hp
      rw [List.filter_cons]
      simp only [hp, Bool.not_false, if_true]
      rw [ih (by omega)]

/-- The slot body emits no pause events. -/
lemma fillSlot_noPaused (qt : Bool) (B : Nat) (ora : Oracle)
    (chunks : List Chunk) (i : Bool) (st : St) :
    pausedCount (fillSlot qt B ora chunks i st).evs = 0 := by
  by_cases h1 : st.stopping = true
  · simp [fillSlot, h1, pausedCount]
  · by_cases h2 : (readChunk chunks st.pos).length = 0
    · cases qt <;> simp [fillSlot, h1, h2, pausedCount, Ev.isPaused]
    · by_cases hwa : st.prevlen < B ∧ (readChunk chunks st.pos).length < B
      all_goals cases h16 : toInt16 (readChunk chunks st.pos) with
      | none => simp [fillSlot, h1, h2, h16, hwa, pausedCount, Ev.isPaused]
      | some samples =>
        cases hpk : peakOf samples with
        | none =>
          simp [fillSlot, h1, h2, h16, hpk, hwa, pausedCount, Ev.isPaused]
        | some v =>
          by_cases hp : ora.prepFail st.subCount = true
          · simp [fillSlot, h1, h2, h16, hpk, hwa, hp, pausedCount,
              Ev.isPaused]
          · by_cases hw : ora.writeFail st.subCount = true
            · simp [fillSlot, h1, h2, h16, hpk, hwa, hp, hw, pausedCount,
                Ev.isPaused]
            · simp [fillSlot, h1, h2, h16, hpk, hwa, hp, hw, pausedCount,
                Ev.isPaused]

/-- The fill pass emits no pause events. -/
lemma fillPass_noPaused (qt : Bool) (B : Nat) (ora : Oracle)
    (chunks : List Chunk) (ids : List Bool) (st : St) :
    pausedCount (fillPass qt B ora chunks ids st).evs = 0 := by
  induction ids generalizing st with
  | nil => rfl
  | cons i rest ih =>
    by_cases hbrk : (fillSlot qt B ora chunks i st).brk = true
    · simp only [fillPass, hbrk, if_true]
      exact fillSlot_noPaused qt B ora chunks i st
    · simp only [Bool.not_eq_true] at hbrk
      simp only [fillPass, hbrk, Bool.false_eq_true, if_false]
      rw [pausedCount_append, fillSlot_noPaused qt B ora chunks i st, ih]

/-- The completion wait emits no pause events. -/
lemma waitStep_noPaused (ora : Oracle) (st : St) :
    pausedCount (waitStep ora st).evs = 0 := by
  obtain ⟨p, -, he⟩ := (waitStep_evs 0 ora st).1
  rw [he]
  rfl

/-- With the shared stop flag observed (or an external `stop()` call
taking effect), the `run` iteration breaks right after the pause gate:
nothing is read, nothing is submitted. -/
lemma runIter_stop (B BPS : Nat) (ora : Oracle) (chunks : List Chunk)
    (sched : Nat → Nat × Bool) (st : St)
    (h : (st.sharedStop || (sched st.iter).2) = true) :
    runIter B BPS ora chunks sched st =
      ⟨List.replicate (sched st.iter).1 Ev.paused,
        { st with sharedStop := true }, none, true⟩ := by
  simp only [runIter, h, if_pos]

/-- With the stop flag clear, the `run` iteration is the pause events
followed by a fill pass, sleep, and completion wait on the unchanged
state. -/
lemma runIter_go (B BPS : Nat) (ora : Oracle) (chunks : List Chunk)
    (sched : Nat → Nat × Bool) (st : St)
    (h : (st.sharedStop || (sched st.iter).2) = false) :
    runIter B BPS ora chunks sched st =
      (let r1 := fillPass true B ora chunks (freeids st) st
       match r1.fatal with
       | some fk =>
         ⟨List.replicate (sched st.iter).1 Ev.paused ++ r1.evs, r1.st,
           some fk, true⟩
       | none =>
         let r2 := waitStep ora r1.st
         match r2.fatal with
         | some fk =>
           ⟨List.replicate (sched st.iter).1 Ev.paused ++ r1.evs ++
             sleepEv BPS r1.st :: r2.evs, r2.st, some fk, true⟩
         | none =>
           ⟨List.replicate (sched st.iter).1 Ev.paused ++ r1.evs ++
             sleepEv BPS r1.st :: r2.evs, advance r2.st, none, false⟩) := by
  have hor := Bool.or_eq_false_iff.mp h
  have hst0 : ({ st with sharedStop := false } : St) = st := by
    rw [← hor.1]
  simp only [runIter, hor.1, hor.2, Bool.or_self, hst0,
    Bool.false_eq_true, if_false]

@[simp] lemma readsOf_replicate_paused (n : Nat) :
    readsOf (List.replicate n Ev.paused) = [] := by
  induction n with
  | zero => rfl
  | succ m ih => rw [List.replicate_succ]; simpa using ih

@[simp] lemma submitsOf_replicate_paused (n : Nat) :
    submitsOf (List.replicate n Ev.paused) = [] := by
  induction n with
  | zero => rfl
  | succ m ih => rw [List.replicate_succ]; simpa using ih

@[simp] lemma pausedCount_sleep (v : ℚ) (t : List Ev) :
    pausedCount (Ev.sleep v :: t) = pausedCount t := by
  unfold pausedCount
  rw [List.countP_cons]
  simp [Ev.isPaused]

@[simp] lemma filter_replicate_paused (n : Nat) :
    (List.replicate n Ev.paused).filter (fun e => !e.isPaused) = [] := by
  induction n with
  | zero => rfl
  | succ m ih => rw [List.replicate_succ, List.filter_cons]; simpa [Ev.isPaused]

/-- Pause suspensions only ever insert pause events: each `run` iteration
is its pause events followed by the iteration of the pause-free
schedule, with an identical state transition. -/
lemma runIter_depause (B BPS : Nat) (ora : Oracle) (chunks : List Chunk)
    (sched : Nat → Nat × Bool) (st : St) :
    runIter B BPS ora chunks sched st =
      ⟨List.replicate (sched st.iter).1 Ev.paused ++
          (runIter B BPS ora chunks (depause sched) st).evs,
        (runIter B BPS ora chunks (depause sched) st).st,
        (runIter B BPS ora chunks (depause sched) st).fatal,
        (runIter B BPS ora chunks (depause sched) st).brk⟩ := by
  by_cases hsh : (st.sharedStop || (sched st.iter).2) = true
  · rw [runIter_stop B BPS ora chunks sched st hsh,
      runIter_stop B BPS ora chunks (depause sched) st hsh]
    simp [depause]
  · simp only [Bool.not_eq_true] at hsh
    rw [runIter_go B BPS ora chunks sched st hsh,
      runIter_go B BPS ora chunks (depause sched) st hsh]
    cases hf1 : (fillPass true B ora chunks (freeids st) st).fatal with
    | some fk => simp [depause, hf1]
    | none =>
      cases hf2 : (waitStep ora
          (fillPass true B ora chunks (freeids st) st).st).fatal with
      | some fk => simp [depause, hf1, hf2]
      | none => simp [depause, hf1, hf2]

/-- A pause-free `run` iteration emits no pause events. -/
lemma runIter_noPaused (B BPS : Nat) (ora : Oracle) (chunks : List Chunk)
    (sched : Nat → Nat × Bool) (st : St) :
    pausedCount (runIter B BPS ora chunks (depause sched) st).evs = 0 := by
  by_cases hsh : (st.sharedStop || (sched st.iter).2) = true
  · rw [runIter_stop B BPS ora chunks (depause sched) st hsh]
    rfl
  · simp only [Bool.not_eq_true] at hsh
    rw [runIter_go B BPS ora chunks (depause sched) st hsh]
    have hfp := fillPass_noPaused true B ora chunks (freeids st) st
    have hws := waitStep_noPaused ora
      (fillPass true B ora chunks (freeids st) st).st
    have hrep : List.replicate (depause sched st.iter).1 Ev.paused =
        ([] : List Ev) := rfl
    cases hf1 : (fillPass true B ora chunks (freeids st) st).fatal with
    | some fk =>
      simp only [hf1, hrep, List.nil_append]
      exact hfp
    | none =>
      cases hf2 : (waitStep ora
          (fillPass true B ora chunks (freeids st) st).st).fatal with
      | some fk =>
        simp [hf1, hf2, hrep, sleepEv, hfp, hws]
      | none =>
        simp [hf1, hf2, hrep, sleepEv, hfp, hws]

/-- With an error-free device and even chunks a `run` iteration never
exits fatally. -/
lemma runIter_noFatal (B BPS : Nat) {ora : Oracle} {chunks : List Chunk}
    (sched : Nat → Nat × Bool) (st : St) (hEF : ora.errFree)
    (hEv : evenChunks chunks) :
    (runIter B BPS ora chunks sched st).fatal = none := by
  by_cases hsh : (st.sharedStop || (sched st.iter).2) = true
  · rw [runIter_stop B BPS ora chunks sched st hsh]
  · simp only [Bool.not_eq_true] at hsh
    rw [runIter_go B BPS ora chunks sched st hsh]
    have hf1 := fillPass_noFatal true B (freeids st) st hEF hEv
    have hf2 := (waitStep_fatal ora
      (fillPass true B ora chunks (freeids st) st).st).1 (hEF.2.2 _)
    simp only [hf1, hf2]

/-- If a `run` iteration does not exit fatally, the blocks it submits
are exactly the nonempty chunks it read, in read order. -/
lemma runIter_subs (B BPS : Nat) (ora : Oracle) (chunks : List Chunk)
    (sched : Nat → Nat × Bool) (st : St)
    (hf : (runIter B BPS ora chunks sched st).fatal = none) :
    submitsOf (runIter B BPS ora chunks sched st).evs =
      (readsOf (runIter B BPS ora chunks sched st).evs).filter
        fun c => !c.isEmpty := by
  by_cases hsh : (st.sharedStop || (sched st.iter).2) = true
  · rw [runIter_stop B BPS ora chunks sched st hsh]
    simp
  · simp only [Bool.not_eq_true] at hsh
    rw [runIter_go B BPS ora chunks sched st hsh] at hf ⊢
    cases hf1 : (fillPass true B ora chunks (freeids st) st).fatal with
    | some fk =>
      simp only [hf1] at hf
      exact (Option.some_ne_none _ hf).elim
    | none =>
      have h1 := (fillPass_subs true B ora chunks (freeids st) st).1 hf1
      obtain ⟨-, -, -, -, -, -, hread2, hsub2, -, -⟩ :=
        waitStep_evs BPS ora (fillPass true B ora chunks (freeids st) st).st
      cases hf2 : (waitStep ora
          (fillPass true B ora chunks (freeids st) st).st).fatal with
      | some fk =>
        simp only [hf1, hf2] at hf
        exact (Option.some_ne_none _ hf).elim
      | none =>
        simp only [hf1, hf2]
        simp [sleepEv, h1, hread2, hsub2, List.filter_append]

/-- Unfolding: the `run` loop breaks at the stop check. -/
lemma runLoop_stop (B BPS : Nat) (ora : Oracle) (chunks : List Chunk)
    (sched : Nat → Nat × Bool) (n : Nat) (st : St)
    (h : (st.sharedStop || (sched st.iter).2) = true) :
    runLoop B BPS ora chunks sched (n + 1) st =
      ⟨List.replicate (sched st.iter).1 Ev.paused,
        { st with sharedStop := true }, .ok⟩ := by
  simp only [runLoop, runIter_stop B BPS ora chunks sched st h]
  simp

/-- Unfolding: a non-fatal, non-breaking `run` iteration is followed by
the loop on the advanced state. -/
lemma runLoop_step (B BPS : Nat) (ora : Oracle) (chunks : List Chunk)
    (sched : Nat → Nat × Bool) (n : Nat) (st : St)
    (hf : (runIter B BPS ora chunks sched st).fatal = none)
    (hbrk : (runIter B BPS ora chunks sched st).brk = false) :
    runLoop B BPS ora chunks sched (n + 1) st =
      ⟨(runIter B BPS ora chunks sched st).evs ++
          (runLoop B BPS ora chunks sched n
            (runIter B BPS ora chunks sched st).st).evs,
        (runLoop B BPS ora chunks sched n
          (runIter B BPS ora chunks sched st).st).st,
        (runLoop B BPS ora chunks sched n
          (runIter B BPS ora chunks sched st).st).out⟩ := by
  simp only [runLoop, hf, hbrk, Bool.false_eq_true, if_false]

/-- Exact-once byte accounting for the `run` loop. -/
lemma runLoop_subs (B BPS : Nat) {ora : Oracle} {chunks : List Chunk}
    (sched : Nat → Nat × Bool) (hEF : ora.errFree) (hEv : evenChunks chunks) :
    ∀ fuel st, submitsOf (runLoop B BPS ora chunks sched fuel st).evs =
      (readsOf (runLoop B BPS ora chunks sched fuel st).evs).filter
        fun c => !c.isEmpty := by
  intro fuel
  induction fuel with
  | zero => exact fun st => rfl
  | succ n ih =>
    intro st
    have hf := runIter_noFatal B BPS sched st hEF hEv
    by_cases hbrk : (runIter B BPS ora chunks sched st).brk = true
    · simp only [runLoop, hf, hbrk, if_true]
      exact runIter_subs B BPS ora chunks sched st hf
    · simp only [Bool.not_eq_true] at hbrk
      rw [runLoop_step B BPS ora chunks sched n st hf hbrk]
      simp only [submitsOf_append, readsOf_append, List.filter_append]
      rw [runIter_subs B BPS ora chunks sched st hf, ih _]

/-- Pause/resume only suspends: removing the pause events from a `run`
trace gives exactly the trace of the pause-free schedule, with the same
final state and outcome — no read, no submission, and no slot transition
ever depends on the pauses, and filling resumes exactly where it left
off. -/
lemma runLoop_depause (B BPS : Nat) (ora : Oracle) (chunks : List Chunk)
    (sched : Nat → Nat × Bool) :
    ∀ fuel st,
      (runLoop B BPS ora chunks sched fuel st).evs.filter
        (fun e => !e.isPaused) =
        (runLoop B BPS ora chunks (depause sched) fuel st).evs ∧
      (runLoop B BPS ora chunks sched fuel st).st =
        (runLoop B BPS ora chunks (depause sched) fuel st).st ∧
      (runLoop B BPS ora chunks sched fuel st).out =
        (runLoop B BPS ora chunks (depause sched) fuel st).out := by
  intro fuel
  induction fuel with
  | zero => exact fun st => ⟨rfl, rfl, rfl⟩
  | succ n ih =>
    intro st
    have hdp := runIter_depause B BPS ora chunks sched st
    have hnp := runIter_noPaused B BPS ora chunks sched st
    have hfil : (runIter B BPS ora chunks (depause sched) st).evs.filter
        (fun e => !e.isPaused) =
        (runIter B BPS ora chunks (depause sched) st).evs :=
      filter_of_no_paused _ hnp
    cases hf : (runIter B BPS ora chunks (depause sched) st).fatal with
    | some fk =>
      simp only [runLoop, hdp, hf]
      refine ⟨?_, by trivial, by trivial⟩
      rw [List.filter_append, filter_replicate_paused, List.nil_append, hfil]
    | none =>
      by_cases hbrk : (runIter B BPS ora chunks (depause sched) st).brk = true
      · simp only [runLoop, hdp, hf, hbrk, if_true]
        refine ⟨?_, by trivial, by trivial⟩
        rw [List.filter_append, filter_replicate_paused, List.nil_append,
          hfil]
      · simp only [Bool.not_eq_true] at hbrk
        simp only [runLoop, hdp, hf, hbrk, Bool.false_eq_true, if_false]
        obtain ⟨hevs, hst, hout⟩ :=
          ih (runIter B BPS ora chunks (depause sched) st).st
        refine ⟨?_, hst, hout⟩
        rw [List.append_assoc, List.filter_append, filter_replicate_paused,
          List.nil_append, List.filter_append, hfil, hevs]

/-! ### Remaining support lemmas for the claim theorems -/

/-- Dropping empty chunks does not change the concatenated bytes. -/
lemma join_filter_nonempty (l : List Chunk) :
    (l.filter fun c => !c.isEmpty).join = l.join := by
  induction l with
  | nil => rfl
  | cons c t ih =>
    cases c with
    | nil => simpa using ih
    | cons b bs => simpa using ih

/-- A completed iteration sleeps exactly once. -/
lemma playIter_sleepCount (B BPS : Nat) (ora : Oracle) (chunks : List Chunk)
    (st : St) (hbrk : (playIter B BPS ora chunks st).brk = false) :
    sleepCount (playIter B BPS ora chunks st).evs = 1 := by
  by_cases hbc : ((getSlot st false).busy = false ∧
      (getSlot st true).busy = false ∧ st.stopping = true)
  · rw [playIter_break B BPS ora chunks st hbc] at hbrk
    exact absurd hbrk (by simp)
  · simp only [playIter, if_neg hbc] at hbrk ⊢
    obtain ⟨-, -, -, -, -, hsc1⟩ :=
      fillPass_walk BPS false B ora chunks (freeids st) st
    obtain ⟨-, -, -, -, -, hsc2, -, -, -, -⟩ :=
      waitStep_evs BPS ora (fillPass false B ora chunks (freeids st) st).st
    cases hf1 : (fillPass false B ora chunks (freeids st) st).fatal with
    | some fk =>
      simp only [hf1] at hbrk
      exact absurd hbrk (by simp)
    | none =>
      cases hf2 : (waitStep ora
          (fillPass false B ora chunks (freeids st) st).st).fatal with
      | some fk =>
        rw [hf1] at hbrk
        simp only [hf2] at hbrk
        exact absurd hbrk (by simp)
      | none =>
        simp only [hf1, hf2]
        simp [sleepEv, hsc1, hsc2]

/-- Once the `play` stop flag is set, an iteration reads and submits
nothing. -/
lemma playIter_stopping_noRead (B BPS : Nat) (ora : Oracle)
    (chunks : List Chunk) (st : St) (h : st.stopping = true) :
    readsOf (playIter B BPS ora chunks st).evs = [] ∧
    submitsOf (playIter B BPS ora chunks st).evs = [] := by
  by_cases hbc : ((getSlot st false).busy = false ∧
      (getSlot st true).busy = false ∧ st.stopping = true)
  · rw [playIter_break B BPS ora chunks st hbc]
    exact ⟨rfl, rfl⟩
  · simp only [playIter, if_neg hbc,
      fillPass_stopping false B ora chunks (freeids st) st h]
    obtain ⟨-, -, -, -, -, -, hread2, hsub2, -, -⟩ := waitStep_evs BPS ora st
    cases hf2 : (waitStep ora st).fatal with
    | some fk => simp [sleepEv, hread2, hsub2]
    | none => simp [sleepEv, hread2, hsub2]

/-- With an error-free device, a fatal exit of the slot body can only be
the `ValueError` of the int16 conversion. -/
lemma fillSlot_fatal_kinds (qt : Bool) (B : Nat) {ora : Oracle}
    (chunks : List Chunk) (i : Bool) (st : St) (hEF : ora.errFree) :
    (fillSlot qt B ora chunks i st).fatal = none ∨
    (fillSlot qt B ora chunks i st).fatal = some .valueErr := by
  by_cases h1 : st.stopping = true
  · simp [fillSlot, h1]
  · by_cases h2 : (readChunk chunks st.pos).length = 0
    · cases qt <;> simp [fillSlot, h1, h2]
    · cases h16 : toInt16 (readChunk chunks st.pos) with
      | none => simp [fillSlot, h1, h2, h16]
      | some samples =>
        cases hpk : peakOf samples with
        | none => simp [fillSlot, h1, h2, h16, hpk]
        | some v =>
          simp [fillSlot, h1, h2, h16, hpk, hEF.1 st.subCount,
            hEF.2.1 st.subCount]

/-- Without an even-length guarantee but with an error-free device, the
fill pass can only die on the int16 conversion. -/
lemma fillPass_fatal_kinds (qt : Bool) (B : Nat) {ora : Oracle}
    (chunks : List Chunk) (ids : List Bool) (st : St) (hEF : ora.errFree) :
    (fillPass qt B ora chunks ids st).fatal = none ∨
    (fillPass qt B ora chunks ids st).fatal = some .valueErr := by
  induction ids generalizing st with
  | nil => exact Or.inl rfl
  | cons i rest ih =>
    by_cases hbrk : (fillSlot qt B ora chunks i st).brk = true
    · simp only [fillPass, hbrk, if_true]
      exact fillSlot_fatal_kinds qt B chunks i st hEF
    · simp only [Bool.not_eq_true] at hbrk
      simp only [fillPass, hbrk, Bool.false_eq_true, if_false]
      exact ih _

/-- With an error-free device, the `play` loop can only die on the int16
conversion: a still-playing poll is retried and never fatal, and no
device-stage failure can occur. -/
lemma playLoop_fatal_kinds (B BPS : Nat) {ora : Oracle}
    (chunks : List Chunk) (hEF : ora.errFree) :
    ∀ fuel st,
      (playLoop B BPS ora chunks fuel st).out ≠ .fatal .prep ∧
      (playLoop B BPS ora chunks fuel st).out ≠ .fatal .wr ∧
      ∀ c, (playLoop B BPS ora chunks fuel st).out ≠ .fatal (.pollErr c) := by
  intro fuel
  induction fuel with
  | zero => intro st; exact ⟨by simp [playLoop], by simp [playLoop],
      fun c => by simp [playLoop]⟩
  | succ n ih =>
    intro st
    have hkind : (playIter B BPS ora chunks st).fatal = none ∨
        (playIter B BPS ora chunks st).fatal = some .valueErr := by
      by_cases hbc : ((getSlot st false).busy = false ∧
          (getSlot st true).busy = false ∧ st.stopping = true)
      · rw [playIter_break B BPS ora chunks st hbc]
        exact Or.inl rfl
      · simp only [playIter, if_neg hbc]
        rcases fillPass_fatal_kinds false B chunks (freeids st) st hEF with
          hf1 | hf1
        · have hf2 := (waitStep_fatal ora
            (fillPass false B ora chunks (freeids st) st).st).1 (hEF.2.2 _)
          simp [hf1, hf2]
        · simp [hf1]
    rcases hkind with hf | hf
    · by_cases hbrk : (playIter B BPS ora chunks st).brk = true
      · simp only [playLoop, hf, hbrk, if_true]
        exact ⟨by simp, by simp, fun c => by simp⟩
      · simp only [Bool.not_eq_true] at hbrk
        rw [playLoop_step B BPS ora chunks n st hf hbrk]
        exact ih _
    · simp only [playLoop, hf]
      exact ⟨by simp, by simp, fun c => by simp⟩

/-- With even chunks, the slot body never raises the int16
`ValueError`. -/
lemma fillSlot_noValueErr (qt : Bool) (B : Nat) (ora : Oracle)
    {chunks : List Chunk} (i : Bool) (st : St) (hEv : evenChunks chunks) :
    (fillSlot qt B ora chunks i st).fatal ≠ some .valueErr := by
  by_cases h1 : st.stopping = true
  · simp [fillSlot, h1]
  · by_cases h2 : (readChunk chunks st.pos).length = 0
    · cases qt <;> simp [fillSlot, h1, h2]
    · obtain ⟨s, hs, hl⟩ := toInt16_some _ (readChunk_even hEv st.pos)
      have hsne : s ≠ [] := by
        intro hnil
        rw [hnil] at hl
        simp at hl
        omega
      obtain ⟨a, t, rfl⟩ : ∃ a t, s = a :: t := by
        cases s with
        | nil => exact absurd rfl hsne
        | cons a t => exact ⟨a, t, rfl⟩
      by_cases hp : ora.prepFail st.subCount = true
      · simp [fillSlot, h1, h2, hs, peakOf, hp]
      · by_cases hw : ora.writeFail st.subCount = true
        · simp [fillSlot, h1, h2, hs, peakOf, hp, hw]
        · simp [fillSlot, h1, h2, hs, peakOf, hp, hw]

/-- With even chunks, the fill pass never raises the int16
`ValueError`. -/
lemma fillPass_noValueErr (qt : Bool) (B : Nat) (ora : Oracle)
    {chunks : List Chunk} (ids : List Bool) (st : St)
    (hEv : evenChunks chunks) :
    (fillPass qt B ora chunks ids st).fatal ≠ some .valueErr := by
  induction ids generalizing st with
  | nil => simp [fillPass]
  | cons i rest ih =>
    by_cases hbrk : (fillSlot qt B ora chunks i st).brk = true
    · simp only [fillPass, hbrk, if_true]
      exact fillSlot_noValueErr qt B ora i st hEv
    · simp only [Bool.not_eq_true] at hbrk
      simp only [fillPass, hbrk, Bool.false_eq_true, if_false]
      exact ih _

/-- With even chunks, the `play` loop never dies with the int16
`ValueError`, whatever the device does. -/
lemma playLoop_noValueErr (B BPS : Nat) (ora : Oracle)
    {chunks : List Chunk} (hEv : evenChunks chunks) :
    ∀ fuel st, (playLoop B BPS ora chunks fuel st).out ≠
      .fatal .valueErr := by
  intro fuel
  induction fuel with
  | zero => intro st; simp [playLoop]
  | succ n ih =>
    intro st
    have hkind : ∀ fk, (playIter B BPS ora chunks st).fatal = some fk →
        fk ≠ .valueErr := by
      intro fk hfk hve
      subst hve
      by_cases hbc : ((getSlot st false).busy = false ∧
          (getSlot st true).busy = false ∧ st.stopping = true)
      · rw [playIter_break B BPS ora chunks st hbc] at hfk
        exact Option.noConfusion hfk
      · simp only [playIter, if_neg hbc] at hfk
        cases hf1 : (fillPass false B ora chunks (freeids st) st).fatal with
        | some fk1 =>
          rw [hf1] at hfk
          simp only [Option.some_inj] at hfk
          rw [hfk] at hf1
          exact fillPass_noValueErr false B ora (freeids st) st hEv hf1
        | none =>
          cases hf2 : (waitStep ora
              (fillPass false B ora chunks (freeids st) st).st).fatal with
          | some fk2 =>
            rw [hf1] at hfk
            simp only [hf2, Option.some_inj] at hfk
            rw [hfk] at hf2
            rcases (waitStep_fatal ora _).2 with hn | ⟨c, hc⟩
            · rw [hf2] at hn; exact Option.noConfusion hn
            · rw [hf2] at hc
              simp at hc
          | none =>
            rw [hf1] at hfk
            simp only [hf2] at hfk
            exact Option.noConfusion hfk
    cases hf : (playIter B BPS ora chunks st).fatal with
    | some fk =>
      simp only [playLoop, hf]
      have := hkind fk hf
      simp [this]
    | none =>
      by_cases hbrk : (playIter B BPS ora chunks st).brk = true
      · simp only [playLoop, hf, hbrk, if_true]
        simp
      · simp only [Bool.not_eq_true] at hbrk
        rw [playLoop_step B BPS ora chunks n st hf hbrk]
        exact ih _

/-- The reclaimable headers are listed in ascending order: `freeids`
(mapped to indices) is a sublist of `[0, 1]`. -/
lemma freeids_map_sublist (st : St) :
    List.Sublist ((freeids st).map slotIdx) [0, 1] := by
  unfold freeids
  by_cases hs0 : (getSlot st false).busy <;>
    by_cases hs1 : (getSlot st true).busy <;>
    simp [hs0, hs1, slotIdx]

/-- Advancing the cursor is `(curblock + 1) % len(self.headers)`. -/
lemma slotIdx_advance (b : Bool) : slotIdx (!b) = (slotIdx b + 1) % 2 := by
  cases b <;> decide

/-- Number of headers currently in flight. -/
def inflightCount (st : St) : Nat :=
  (if st.slot0 = .inflight then 1 else 0) +
    (if st.slot1 = .inflight then 1 else 0)

/-- At most as many blocks are in flight as there are headers. -/
lemma inflightCount_le_two (st : St) : inflightCount st ≤ 2 := by
  unfold inflightCount
  split_ifs <;> omega

/-! ### Concrete devices and schedules used by the claim theorems -/

/-- An external schedule that issues a `stop()` call observed at the
top of iteration 1, with no pauses. -/
def schedStop1 : Nat → Nat × Bool := fun k => (0, k == 1)

/-- A schedule with no pauses and no external stop. -/
def schedNone : Nat → Nat × Bool := fun _ => (0, false)

/-- A device that rejects the first `waveOutWrite`. -/
def oraWr : Oracle := { oraTriv with writeFail := fun k => k == 0 }

/-- A device that rejects the first `waveOutPrepareHeader`. -/
def oraPrep : Oracle := { oraTriv with prepFail := fun k => k == 0 }

/-- A device that answers still-playing twice and then an unrecoverable
status code 5 on every completion wait. -/
def oraPoll5 : Oracle := { oraTriv with poll := fun _ => ⟨2, some 5⟩ }

/-- `oraTriv` injects no failures. -/
lemma oraTriv_errFree : oraTriv.errFree :=
  ⟨fun _ => rfl, fun _ => rfl, fun _ => rfl⟩

/-! ### The claims -/

/-- C1: For every finite sequence of chunks returned by the source's
reads (with an error-free device and even-length chunks, i.e. a
completing session), the blocks submitted to the device are exactly the
nonempty chunks read, in read order — so the concatenation of submitted
bytes equals the concatenation of read bytes, every byte exactly once,
with no reordering, drop or duplication, and the zero-length terminating
read contributing no block.  Shown for the `play` loop of audiosocket.py
and, under any pause/stop schedule, for the `run` loop of
pyqtAudioWriter.py. -/
theorem claim_C1 (B BPS : Nat) (ora : Oracle) (chunks : List Chunk)
    (fuel : Nat) (sched : Nat → Nat × Bool)
    (hEF : ora.errFree) (hEv : evenChunks chunks) :
    (submitsOf (playRun B BPS ora chunks fuel).evs =
      (readsOf (playRun B BPS ora chunks fuel).evs).filter
        fun c => !c.isEmpty) ∧
    (submitsOf (playRun B BPS ora chunks fuel).evs).join =
      (readsOf (playRun B BPS ora chunks fuel).evs).join ∧
    (submitsOf (runRun B BPS ora chunks sched fuel).evs =
      (readsOf (runRun B BPS ora chunks sched fuel).evs).filter
        fun c => !c.isEmpty) ∧
    (submitsOf (runRun B BPS ora chunks sched fuel).evs).join =
      (readsOf (runRun B BPS ora chunks sched fuel).evs).join := by
  have h1 := playLoop_subs B BPS hEF hEv fuel initSt
  have h2 := runLoop_subs B BPS sched hEF hEv fuel initSt
  exact ⟨h1, by rw [show playRun B BPS ora chunks fuel =
      playLoop B BPS ora chunks fuel initSt from rfl, h1,
      join_filter_nonempty],
    h2, by rw [show runRun B BPS ora chunks sched fuel =
      runLoop B BPS ora chunks sched fuel initSt from rfl, h2,
      join_filter_nonempty]⟩

/-- Witness for C1 at a concrete two-chunk source and failure-free
device. -/
theorem claim_C1_witness :
    (submitsOf (playRun 4 176400 oraTriv [[1, 0], [2, 0]] 10).evs =
      (readsOf (playRun 4 176400 oraTriv [[1, 0], [2, 0]] 10).evs).filter
        fun c => !c.isEmpty) ∧
    (submitsOf (playRun 4 176400 oraTriv [[1, 0], [2, 0]] 10).evs).join =
      (readsOf (playRun 4 176400 oraTriv [[1, 0], [2, 0]] 10).evs).join ∧
    (submitsOf (runRun 4 176400 oraTriv [[1, 0], [2, 0]] schedNone
      10).evs =
      (readsOf (runRun 4 176400 oraTriv [[1, 0], [2, 0]] schedNone
        10).evs).filter fun c => !c.isEmpty) ∧
    (submitsOf (runRun 4 176400 oraTriv [[1, 0], [2, 0]] schedNone
      10).evs).join =
      (readsOf (runRun 4 176400 oraTriv [[1, 0], [2, 0]] schedNone
        10).evs).join :=
  claim_C1 4 176400 oraTriv [[1, 0], [2, 0]] 10 schedNone
    oraTriv_errFree (by decide)

/-- C2 counterexample: a single short read does raise the underrun
warning.  With `BUFSIZE = 4` and a source yielding one 2-byte chunk then
end-of-stream, the only read is the first read of the session, it is
short, and the warning fires on it — although the claim says a single
short read (including the first of the session) never warns.  Moreover,
in the scaled version of the claim's scenario (`BUFSIZE = 8`, chunks of
8, 4, 2 bytes, then 0), the warning fires twice — on the 4-byte read
(compared against the initial `prevlen = 0`, not against the preceding
full 8-byte read) and on the 2-byte read — not exactly once. -/
theorem claim_C2_counterexample :
    readsOf (playRun 4 176400 oraTriv [[7, 7]] 10).evs = [[7, 7], []] ∧
    warnsOf (playRun 4 176400 oraTriv [[7, 7]] 10).evs = [(2, 4)] ∧
    readsOf (playRun 8 176400 oraTriv
      [List.replicate 8 0, List.replicate 4 0, List.replicate 2 0] 20).evs =
      [List.replicate 8 0, List.replicate 4 0, List.replicate 2 0, []] ∧
    warnsOf (playRun 8 176400 oraTriv
      [List.replicate 8 0, List.replicate 4 0, List.replicate 2 0] 20).evs =
      [(4, 8), (2, 8)] := by
  refine ⟨by decide, by decide, by decide, by decide⟩

/-- C2 amended: the underrun warning is raised on a read exactly when
the read is nonempty, shorter than `BUFSIZE`, and the loop's `prevlen`
state is shorter than `BUFSIZE` — where `prevlen` is the length of the
last read of the *previous loop iteration* (initially 0), not of the
immediately preceding read: every read of one fill pass is compared
against the same `prevlen`, a short first read does warn, and in the
4096/2000/1500/0 scenario the warning fires twice (on the 2000- and
1500-byte reads), shown here in the scaled 8/4/2/0 variant. -/
theorem claim_C2_amended (B BPS : Nat) (ora : Oracle) (chunks : List Chunk) :
    (∀ st : St, warnsOf (playIter B BPS ora chunks st).evs =
      (readsOf (playIter B BPS ora chunks st).evs).filterMap
        fun c => if st.prevlen < B ∧ 0 < c.length ∧ c.length < B then
          some (c.length, B) else none) ∧
    (∀ st : St, (playIter B BPS ora chunks st).fatal = none →
      (playIter B BPS ora chunks st).brk = false →
      (playIter B BPS ora chunks st).st.prevlen =
        lastLenAfter (playIter B BPS ora chunks st).evs st.readlen) ∧
    initSt.prevlen = 0 ∧
    warnsOf (playRun 8 176400 oraTriv
      [List.replicate 8 0, List.replicate 4 0, List.replicate 2 0] 20).evs =
      [(4, 8), (2, 8)] := by
  refine ⟨fun st => playIter_warns B BPS ora chunks st, ?_, rfl, by decide⟩
  intro st hf hbrk
  have hadv := playIter_adv B BPS ora chunks st hf hbrk
  have hlen := ((playIter_walk B BPS ora chunks st).2.2.2 hf).1
  rw [hadv.2.2.1, hlen]

/-- Witness for the amended C2: at a concrete short first read, the
iteration's warnings match the `prevlen`-based rule and `prevlen` is
updated to the iteration's last read length. -/
theorem claim_C2_witness :
    warnsOf (playIter 4 176400 oraTriv [[7, 7]] initSt).evs =
      (readsOf (playIter 4 176400 oraTriv [[7, 7]] initSt).evs).filterMap
        (fun c => if initSt.prevlen < 4 ∧ 0 < c.length ∧ c.length < 4 then
          some (c.length, 4) else none) ∧
    (playIter 4 176400 oraTriv [[7, 7]] initSt).st.prevlen =
      lastLenAfter (playIter 4 176400 oraTriv [[7, 7]] initSt).evs
        initSt.readlen :=
  ⟨(claim_C2_amended 4 176400 oraTriv [[7, 7]]).1 initSt,
    (claim_C2_amended 4 176400 oraTriv [[7, 7]]).2.1 initSt (by decide)
      (by decide)⟩

/-- C3 counterexample: the Qt `run` loop does not wait for every slot to
be reclaimable — its termination check is `if stopping: break` with the
`len(freeids) == blocknum` condition commented out.  With three 2-byte
chunks and an external `stop()` observed at iteration 1, the loop
terminates regularly while header 1 is still `IN_FLIGHT`, having
submitted the first two chunks. -/
theorem claim_C3_counterexample :
    (runRun 4 176400 oraTriv [[1, 0], [2, 0], [3, 0]] schedStop1 10).out =
      .ok ∧
    (runRun 4 176400 oraTriv [[1, 0], [2, 0], [3, 0]] schedStop1
      10).st.slot1 = .inflight ∧
    submitsOf (runRun 4 176400 oraTriv [[1, 0], [2, 0], [3, 0]] schedStop1
      10).evs = [[1, 0], [2, 0]] := by
  refine ⟨by decide, by decide, by decide⟩

/-- C3 amended: after the stop flag is set both loops terminate, and no
chunk read after the flag is observed is submitted; but only the `play`
loop of audiosocket.py exits once every slot is reclaimable (its break
requires all headers free or done), while the Qt `run` loop breaks at
the next stop check regardless of in-flight headers (see the
counterexample).  Formally: (1) with an error-free device and even
chunks, `play` terminates regularly within `chunks.length + 5`
iterations and at the break both headers are reclaimable; (2) a `play`
iteration entered with the stop flag set reads and submits nothing; (3)
a `run` iteration that observes the shared stop flag emits only pause
events — it reads and submits nothing. -/
theorem claim_C3_amended (B BPS : Nat) (ora : Oracle) (chunks : List Chunk)
    (sched : Nat → Nat × Bool) (hEF : ora.errFree) (hEv : evenChunks chunks) :
    ((playRun B BPS ora chunks (chunks.length + 5)).out = .ok ∧
      getSlot (playRun B BPS ora chunks (chunks.length + 5)).st false ≠
        .inflight ∧
      getSlot (playRun B BPS ora chunks (chunks.length + 5)).st true ≠
        .inflight) ∧
    (∀ st : St, st.stopping = true →
      readsOf (playIter B BPS ora chunks st).evs = [] ∧
      submitsOf (playIter B BPS ora chunks st).evs = []) ∧
    (∀ st : St, (st.sharedStop || (sched st.iter).2) = true →
      readsOf (runIter B BPS ora chunks sched st).evs = [] ∧
      submitsOf (runIter B BPS ora chunks sched st).evs = []) := by
  refine ⟨playRun_term B BPS hEF hEv,
    fun st h => playIter_stopping_noRead B BPS ora chunks st h, ?_⟩
  intro st h
  rw [runIter_stop B BPS ora chunks sched st h]
  simp

/-- Witness for the amended C3 at a concrete two-chunk source. -/
theorem claim_C3_witness :
    (playRun 4 176400 oraTriv [[1, 0], [2, 0]]
      (([[1, 0], [2, 0]] : List Chunk).length + 5)).out = .ok ∧
    readsOf (playIter 4 176400 oraTriv [[1, 0], [2, 0]]
      { initSt with stopping := true }).evs = [] :=
  ⟨(claim_C3_amended 4 176400 oraTriv [[1, 0], [2, 0]] schedNone
      oraTriv_errFree (by decide)).1.1,
    ((claim_C3_amended 4 176400 oraTriv [[1, 0], [2, 0]] schedNone
      oraTriv_errFree (by decide)).2.1 { initSt with stopping := true }
      rfl).1⟩

/-- C4: round-robin discipline of the scheduling loop.  At most 2 (the
number of headers) blocks are in flight; an iteration submits only to
headers listed in `freeids` at its start (which are never in flight),
at most once each and in ascending header order (`freeids` maps into the
sublist structure of `[0, 1]`); the completion wait always targets
exactly the round-robin cursor; a completed iteration advances the
cursor by exactly one position mod 2; and over the whole loop the
sequence of waited headers is the alternating rotation `0, 1, 0, …` of
the cursor, whatever the device's completion timing. -/
theorem claim_C4 (B BPS : Nat) (ora : Oracle) (chunks : List Chunk)
    (fuel : Nat) :
    (∀ st : St, inflightCount st ≤ 2) ∧
    (∀ st : St,
      List.Sublist (submitSlotsOf (playIter B BPS ora chunks st).evs)
        ((freeids st).map slotIdx) ∧
      List.Sublist ((freeids st).map slotIdx) [0, 1] ∧
      (∀ i ∈ freeids st, getSlot st i ≠ .inflight) ∧
      (waitsOf (playIter B BPS ora chunks st).evs = [] ∨
        ∃ p, 0 < p ∧ waitsOf (playIter B BPS ora chunks st).evs =
          [(slotIdx st.curblock, p)]) ∧
      ((playIter B BPS ora chunks st).brk = false →
        slotIdx (playIter B BPS ora chunks st).st.curblock =
          (slotIdx st.curblock + 1) % 2)) ∧
    (waitsOf (playRun B BPS ora chunks fuel).evs).map Prod.fst =
      (List.range (waitsOf (playRun B BPS ora chunks fuel).evs).length).map
        (fun k => k % 2) := by
  refine ⟨inflightCount_le_two, ?_, ?_⟩
  · intro st
    have hrr := playIter_rr B BPS ora chunks st
    refine ⟨hrr.1, freeids_map_sublist st, freeids_not_inflight st,
      hrr.2.1, ?_⟩
    intro hbrk
    rw [hrr.2.2.1 hbrk, slotIdx_advance]
  · have h := playLoop_waitSeq B BPS ora chunks fuel initSt
    have hfun : (fun k => (slotIdx initSt.curblock + k) % 2) =
        fun k : Nat => k % 2 := by
      funext k
      show (0 + k) % 2 = k % 2
      rw [Nat.zero_add]
    show (waitsOf (playLoop B BPS ora chunks fuel initSt).evs).map Prod.fst =
      (List.range
        (waitsOf (playLoop B BPS ora chunks fuel initSt).evs).length).map
        (fun k => k % 2)
    rw [h, hfun]

/-- Witness for C4 at a concrete state and source. -/
theorem claim_C4_witness :
    inflightCount initSt ≤ 2 ∧
    slotIdx (playIter 4 176400 oraTriv [[1, 0], [2, 0]] initSt).st.curblock =
      (slotIdx initSt.curblock + 1) % 2 :=
  ⟨(claim_C4 4 176400 oraTriv [[1, 0], [2, 0]] 10).1 initSt,
    ((claim_C4 4 176400 oraTriv [[1, 0], [2, 0]] 10).2.1 initSt).2.2.2.2
      (by decide)⟩

/-- C5: the session starts with correction factor `1.05`, every sleep
of the loop trace lasts exactly `readlen / divideBase / BYTESPERSEC` for
the current `readlen` (length of the most recent read, initially 0) and
the current `divideBase` (tracked through its `+0.01` first-poll bumps),
and every completed iteration sleeps exactly once. -/
theorem claim_C5 (B BPS : Nat) (ora : Oracle) (chunks : List Chunk)
    (fuel : Nat) :
    initSt.divideBase = 105 / 100 ∧
    sleepsOk BPS (playRun B BPS ora chunks fuel).evs 0 (105 / 100) = true ∧
    (∀ st : St, (playIter B BPS ora chunks st).brk = false →
      sleepCount (playIter B BPS ora chunks st).evs = 1) := by
  exact ⟨rfl, playLoop_sleeps B BPS ora chunks fuel initSt,
    fun st h => playIter_sleepCount B BPS ora chunks st h⟩

/-- Witness for C5's per-iteration part at a concrete input. -/
theorem claim_C5_witness :
    sleepCount (playIter 4 176400 oraTriv [[1, 0]] initSt).evs = 1 :=
  (claim_C5 4 176400 oraTriv [[1, 0]] 10).2.2 initSt (by decide)

/-- C6: the wait-correction factor is monotonically non-decreasing over
the whole session — no operation of the loop ever decreases it — and on
an error-free session it ends at exactly `1.05` plus `0.01` per
completion wait that succeeded on its first poll (`pollsnum == 1`);
waits needing more than one poll leave it exactly unchanged (the final
value equals the initial value plus the increment count times 0.01). -/
theorem claim_C6 (B BPS : Nat) (ora : Oracle) (chunks : List Chunk)
    (fuel : Nat) (hEF : ora.errFree) (hEv : evenChunks chunks) :
    (playRun B BPS ora chunks fuel).st.divideBase =
      105 / 100 + (incrCount (playRun B BPS ora chunks fuel).evs : ℚ) / 100 ∧
    (∀ st : St, st.divideBase ≤
      (playIter B BPS ora chunks st).st.divideBase) ∧
    (∀ st fuel2, st.divideBase ≤
      (playLoop B BPS ora chunks fuel2 st).st.divideBase) ∧
    (∀ st : St, (waitStep ora st).fatal = none →
      (waitStep ora st).st.divideBase = st.divideBase +
        (incrCount (waitStep ora st).evs : ℚ) / 100) := by
  exact ⟨playLoop_factor B BPS hEF hEv fuel initSt,
    fun st => (playIter_factor B BPS ora chunks st).2,
    fun st fuel2 => playLoop_mono B BPS ora chunks fuel2 st,
    fun st h => ((waitStep_factor ora st).1 h).2⟩

/-- Witness for C6 at a concrete failure-free session. -/
theorem claim_C6_witness :
    (playRun 4 176400 oraTriv [[1, 0]] 10).st.divideBase =
      105 / 100 +
        (incrCount (playRun 4 176400 oraTriv [[1, 0]] 10).evs : ℚ) / 100 :=
  (claim_C6 4 176400 oraTriv [[1, 0]] 10 oraTriv_errFree (by decide)).1

/-- C7: pause only suspends the Qt `run` loop at its gate before the
fill pass: the pause suspensions of an iteration precede all of its
other events, removing them from the whole trace yields exactly the
trace of the pause-free schedule, and the final state and outcome are
identical — so no read, no submission and no slot transition depends on
the pauses, no in-flight slot is abandoned, and after `resume()` filling
continues from exactly the source position where it left off. -/
theorem claim_C7 (B BPS : Nat) (ora : Oracle) (chunks : List Chunk)
    (sched : Nat → Nat × Bool) (fuel : Nat) :
    (runLoop B BPS ora chunks sched fuel initSt).evs.filter
        (fun e => !e.isPaused) =
      (runLoop B BPS ora chunks (depause sched) fuel initSt).evs ∧
    (runLoop B BPS ora chunks sched fuel initSt).st =
      (runLoop B BPS ora chunks (depause sched) fuel initSt).st ∧
    (runLoop B BPS ora chunks sched fuel initSt).out =
      (runLoop B BPS ora chunks (depause sched) fuel initSt).out ∧
    (∀ st : St, runIter B BPS ora chunks sched st =
      ⟨List.replicate (sched st.iter).1 Ev.paused ++
          (runIter B BPS ora chunks (depause sched) st).evs,
        (runIter B BPS ora chunks (depause sched) st).st,
        (runIter B BPS ora chunks (depause sched) st).fatal,
        (runIter B BPS ora chunks (depause sched) st).brk⟩) := by
  obtain ⟨h1, h2, h3⟩ := runLoop_depause B BPS ora chunks sched fuel initSt
  exact ⟨h1, h2, h3, fun st => runIter_depause B BPS ora chunks sched st⟩

/-- C8: every peak reported on the trace (logged, and emitted to the UI
sink in the Qt variant) is the maximum of the most recent chunk
interpreted as signed 16-bit samples — it is one of the samples and
bounds them all, and no peak can follow a zero-length read; the
submitted blocks are fully characterised by the reads alone (the
nonempty reads in order), so the reporting never alters which bytes are
submitted or their order; and with even chunks the session never aborts
with the conversion `ValueError` (the zero-length chunk raises no
error). -/
theorem claim_C8 (B BPS : Nat) (ora : Oracle) (chunks : List Chunk)
    (fuel : Nat) (hEF : ora.errFree) (hEv : evenChunks chunks) :
    peaksOk (playRun B BPS ora chunks fuel).evs [] = true ∧
    submitsOf (playRun B BPS ora chunks fuel).evs =
      (readsOf (playRun B BPS ora chunks fuel).evs).filter
        (fun c => !c.isEmpty) ∧
    (playRun B BPS ora chunks fuel).out ≠ .fatal .valueErr := by
  exact ⟨playLoop_peaks B BPS ora chunks fuel initSt [],
    playLoop_subs B BPS hEF hEv fuel initSt,
    playLoop_noValueErr B BPS ora hEv fuel initSt⟩

/-- Witness for C8 at a concrete source and device. -/
theorem claim_C8_witness :
    peaksOk (playRun 4 176400 oraTriv [[7, 7]] 10).evs [] = true ∧
    submitsOf (playRun 4 176400 oraTriv [[7, 7]] 10).evs =
      (readsOf (playRun 4 176400 oraTriv [[7, 7]] 10).evs).filter
        (fun c => !c.isEmpty) ∧
    (playRun 4 176400 oraTriv [[7, 7]] 10).out ≠ .fatal .valueErr :=
  claim_C8 4 176400 oraTriv [[7, 7]] 10 oraTriv_errFree (by decide)

/-- C9 counterexample: the scheduler does not close the audio device
before dying.  When the device rejects the first `waveOutWrite`, the
session exits fatally at the write stage (as the claim says), but its
trace contains no `waveOutClose` — the error path is a bare `sys.exit`
and the separate `close()` method is never reached. -/
theorem claim_C9_counterexample :
    (playRun 4 176400 oraWr [[1, 0]] 10).out = .fatal .wr ∧
    closeCount (playRun 4 176400 oraWr [[1, 0]] 10).evs = 0 := by
  refine ⟨by decide, by decide⟩

/-- C9 amended: a rejected `waveOutPrepareHeader` or `waveOutWrite`, or
an unrecoverable completion status, terminates the session as fatal with
an error identifying the failed stage and without retrying the failed
operation; a still-playing poll is the only internally retried condition
and is never fatal (with an error-free device the loop never dies at the
prepare, write or poll stage, for any number of still-playing answers);
but the scheduler does NOT close the audio device before exiting — no
trace ever contains a close, the close lives only in the separate
`close()` method that the `sys.exit` error path bypasses. -/
theorem claim_C9_amended (B BPS : Nat) (ora : Oracle) (chunks : List Chunk)
    (hEF : ora.errFree) :
    (∀ fuel st, (playLoop B BPS ora chunks fuel st).out ≠ .fatal .prep ∧
      (playLoop B BPS ora chunks fuel st).out ≠ .fatal .wr ∧
      ∀ c, (playLoop B BPS ora chunks fuel st).out ≠ .fatal (.pollErr c)) ∧
    (∀ (ora2 : Oracle) (chunks2 : List Chunk) (fuel : Nat) (st : St),
      closeCount (playLoop B BPS ora2 chunks2 fuel st).evs = 0) ∧
    (playRun 4 176400 oraPrep [[1, 0]] 10).out = .fatal .prep ∧
    (playRun 4 176400 oraWr [[1, 0]] 10).out = .fatal .wr ∧
    submitsOf (playRun 4 176400 oraWr [[1, 0]] 10).evs = [] ∧
    (playRun 4 176400 oraPoll5 [[1, 0]] 10).out = .fatal (.pollErr 5) ∧
    waitsOf (playRun 4 176400 oraPoll5 [[1, 0]] 10).evs = [(0, 3)] := by
  refine ⟨playLoop_fatal_kinds B BPS chunks hEF,
    fun ora2 chunks2 fuel st => playLoop_close B BPS ora2 chunks2 fuel st,
    by decide, by decide, by decide, by decide, by decide⟩

/-- Witness for the amended C9 with the failure-free device. -/
theorem claim_C9_witness :
    (playLoop 4 176400 oraTriv [[1, 0]] 10 initSt).out ≠ .fatal .prep ∧
    closeCount (playLoop 4 176400 oraTriv [[1, 0]] 10 initSt).evs = 0 :=
  ⟨((claim_C9_amended 4 176400 oraTriv [[1, 0]] oraTriv_errFree).1
      10 initSt).1,
    (claim_C9_amended 4 176400 oraTriv [[1, 0]]
      oraTriv_errFree).2.1 oraTriv [[1, 0]] 10 initSt⟩

/-- C10: the loop has the unstated precondition that every chunk has an
even byte count: under it the int16 conversion never raises, whatever
the device does; but a source returning an odd number of bytes (possible
for a network source) makes `array.array('h').frombytes` raise an
unhandled `ValueError` that aborts the session — the chunk is read but
never submitted. -/
theorem claim_C10 (B BPS : Nat) (ora : Oracle) (chunks : List Chunk)
    (hEv : evenChunks chunks) :
    (∀ fuel st, (playLoop B BPS ora chunks fuel st).out ≠
      .fatal .valueErr) ∧
    (playRun 4 176400 oraTriv [[1, 2, 3]] 10).out = .fatal .valueErr ∧
    readsOf (playRun 4 176400 oraTriv [[1, 2, 3]] 10).evs = [[1, 2, 3]] ∧
    submitsOf (playRun 4 176400 oraTriv [[1, 2, 3]] 10).evs = [] := by
  refine ⟨playLoop_noValueErr B BPS ora hEv, by decide, by decide, by decide⟩

/-- Witness for C10 under the even-length precondition. -/
theorem claim_C10_witness :
    (playLoop 4 176400 oraTriv [[1, 0]] 10 initSt).out ≠
      .fatal .valueErr :=
  (claim_C10 4 176400 oraTriv [[1, 0]] (by decide)).1 10 initSt

end WavePlayer
